import Mathlib

/-!
Verification of the sudoku-tutor engine (`src/engine.js`) and move advisor
(`src/hints.js`).

A 9×9 board is embedded as a total function `Nat → Nat → Nat`; only the
square `0 ≤ r, c < 9` is meaningful, `0` encodes an empty cell.  JavaScript
in-place mutation of a board becomes functional update (`setCell`), and the
`Math.random()` source becomes an explicit function parameter, so that a
statement quantified over that parameter covers every outcome of the
internal random choices.
-/

namespace SudokuTutor

/-- A board: row → column → value (0 = empty).  Mirrors `number[][]`. -/
abbrev Grid := Nat → Nat → Nat

/-- Functional update of one cell; mirrors `board[r][c] = v`. -/
def setCell (g : Grid) (r c v : Nat) : Grid :=
  fun r' c' => if r' = r ∧ c' = c then v else g r' c'

/-- Build a grid from a list of rows (for concrete test boards). -/
def ofRows (rows : List (List Nat)) : Grid :=
  fun r c => ((rows[r]?).getD [])[c]?.getD 0

/-- All 81 coordinates in row-major order; mirrors
`Array.from({ length: 81 }, (_, i) => [(i / 9) | 0, i % 9])` in
`Engine.generate` and the doubly nested `for (r …) for (c …)` scans. -/
def rowMajor : List (Nat × Nat) :=
  (List.range 81).map (fun i => (i / 9, i % 9))

/-- The digit list `[1, 2, 3, 4, 5, 6, 7, 8, 9]`. -/
def digits : List Nat := [1, 2, 3, 4, 5, 6, 7, 8, 9]

/-- One step of the Fisher-Yates loop body
`[a[i], a[j]] = [a[j], a[i]]` (both indices in range on every actual call). -/
def listSwap (l : List α) (i j : Nat) : List α :=
  if h : i < l.length ∧ j < l.length then (l.set i l[j]).set j l[i] else l

/-- `Engine.shuffle` (Fisher-Yates).  The random draws
`(Math.random() * (i + 1)) | 0` are supplied by `f`: at loop index `i` the
chosen index is `f i % (i + 1)`, which ranges over exactly the values the
JavaScript expression can produce. -/
def fyAux (f : Nat → Nat) : Nat → List α → List α
  | 0, a => a
  | i + 1, a => fyAux f i (listSwap a (i + 1) (f (i + 1) % (i + 2)))

/-- `Engine.shuffle(arr)`: loop `i` from `arr.length - 1` down to `1`. -/
def shuffle (arr : List α) (f : Nat → Nat) : List α :=
  fyAux f (arr.length - 1) arr

/-- `Engine.isValid(board, r, c, n)`: digit `n` clashes with no cell of the
row, the column, or the 3×3 box. -/
def isValid (g : Grid) (r c n : Nat) : Bool :=
  ((List.range 9).all fun i => g r i != n && g i c != n) &&
  ((List.range 3).all fun dr =>
    (List.range 3).all fun dc => g (3 * (r / 3) + dr) (3 * (c / 3) + dc) != n)

/-- `Engine.findEmpty(board)`: first zero cell in row-major order. -/
def findEmpty (g : Grid) : Option (Nat × Nat) :=
  rowMajor.find? (fun rc => g rc.1 rc.2 == 0)

/-- The digit loop of `Engine.fillBoard`: try the shuffled digits in order
at the empty cell `(r, c)`; `next` is the recursive call on the updated
board, and a failed branch resets the cell (functionally: keeps `g`). -/
def tryDigits (next : Grid → Option Grid) (g : Grid) (r c : Nat) :
    List Nat → Option Grid
  | [] => none
  | n :: rest =>
    if isValid g r c n then
      match next (setCell g r c n) with
      | some g' => some g'
      | none => tryDigits next g r c rest
    else tryDigits next g r c rest

/-- `Engine.fillBoard` with explicit recursion fuel (the JavaScript
recursion depth is bounded by the number of empty cells, so any
`fuel ≥ numEmpty g` gives the exact same behaviour).  `rand` supplies the
random draws of the `shuffle` call performed at each visited board. -/
def fillBoardAux (rand : Grid → Nat → Nat) : Nat → Grid → Option Grid
  | 0, g =>
    match findEmpty g with
    | none => some g
    | some _ => none
  | fuel + 1, g =>
    match findEmpty g with
    | none => some g
    | some (r, c) =>
      tryDigits (fillBoardAux rand fuel) g r c (shuffle digits (rand g))

/-- `Engine.fillBoard(board)`: 81 fuel always suffices on a 9×9 board.
Returns the filled board (`true` in JavaScript) or `none` (`false`, with
the board fully backtracked to its input state). -/
def fillBoard (g : Grid) (rand : Grid → Nat → Nat) : Option Grid :=
  fillBoardAux rand 81 g

/-- The digit loop `for (n = 1; n <= 9; n++)` of `countSolutions.solve`,
threading the solution counter; `next` is the recursive `solve`. -/
def csDigits (next : Grid → Nat → Nat) (g : Grid) (r c max : Nat) :
    List Nat → Nat → Nat
  | [], count => count
  | n :: rest, count =>
    if isValid g r c n then
      let count' := next (setCell g r c n) count
      if max ≤ count' then count'
      else csDigits next g r c max rest count'
    else csDigits next g r c max rest count

/-- The recursive `solve()` of `Engine.countSolutions`, with fuel (again,
`fuel ≥ numEmpty g` reproduces the JavaScript exactly). -/
def solveCount (max : Nat) : Nat → Grid → Nat → Nat
  | fuel, g, count =>
    if max ≤ count then count
    else
      match findEmpty g with
      | none => count + 1
      | some (r, c) =>
        match fuel with
        | 0 => count
        | fuel' + 1 =>
          csDigits (fun g' cnt => solveCount max fuel' g' cnt) g r c max
            digits count

/-- `max = max || 2`: a missing (or zero) `max` argument defaults to 2. -/
def maxDefault : Option Nat → Nat
  | none => 2
  | some 0 => 2
  | some (k + 1) => k + 1

/-- `Engine.countSolutions(board, max)`.  The JavaScript works on a
private copy of the caller's board, which the functional embedding
renders as simply reading `g`. -/
def countSolutions (g : Grid) (max? : Option Nat) : Nat :=
  solveCount (maxDefault max?) 81 g 0

/-- The `REMOVALS` difficulty table of `engine.js`. -/
def REMOVALS (difficulty : String) : Option Nat :=
  if difficulty = "beginner" then some 30
  else if difficulty = "easy" then some 38
  else if difficulty = "medium" then some 46
  else if difficulty = "hard" then some 52
  else if difficulty = "expert" then some 56
  else none

/-- The removal loop of `Engine.generate`: walk the shuffled positions,
tentatively zero each cell, keep the removal only when the puzzle still has
a unique solution, stop once `target` removals are reached. -/
def removeLoop (target : Nat) : List (Nat × Nat) → Grid → Nat → Grid
  | [], p, _ => p
  | (r, c) :: rest, p, removed =>
    if target ≤ removed then p
    else
      let saved := p r c
      let p' := setCell p r c 0
      if countSolutions p' none = 1 then removeLoop target rest p' (removed + 1)
      else removeLoop target rest (setCell p' r c saved) removed

/-- Result record `{ puzzle, solution }` of `Engine.generate`. -/
structure GenResult where
  puzzle : Grid
  solution : Grid

/-- Step 1 of `Engine.generate`: fill an all-zero board.  `generate`
ignores `fillBoard`'s boolean result; on failure the in-place board has
been fully backtracked to all zeros, which the embedding renders as the
`none => ` branch. -/
def generatedBoard (randF : Grid → Nat → Nat) : Grid :=
  match fillBoard (fun _ _ => 0) randF with
  | some b => b
  | none => fun _ _ => 0

/-- `Engine.generate(difficulty)`.  `randF` drives the shuffles inside
`fillBoard`, `randP` the shuffle of the 81 removal positions.
`REMOVALS[difficulty] || REMOVALS.easy` is the `getD 38` fallback (every
table entry is non-zero, so `||` is exactly the missing-key fallback). -/
def generate (difficulty : String) (randF : Grid → Nat → Nat)
    (randP : Nat → Nat) : GenResult :=
  let board := generatedBoard randF
  let target := (REMOVALS difficulty).getD 38
  let positions := shuffle rowMajor randP
  ⟨removeLoop target positions board 0, board⟩

/-- `Engine.candidates(board, r, c)`: start from `{1,…,9}` and delete every
value seen in the row, the column and the box (deleting the `0` of an empty
peer is a no-op, exactly as `Set.delete(0)` is). -/
def candidates (g : Grid) (r c : Nat) : Finset Nat :=
  if g r c ≠ 0 then ∅
  else
    let p0 : Finset Nat := {1, 2, 3, 4, 5, 6, 7, 8, 9}
    let p1 := (List.range 9).foldl (fun s i => (s.erase (g r i)).erase (g i c)) p0
    (List.range 3).foldl
      (fun s dr =>
        (List.range 3).foldl
          (fun t dc => t.erase (g (3 * (r / 3) + dr) (3 * (c / 3) + dc))) s)
      p1

/-- `Engine.conflicts(board, r, c, val)`: the row/column loop pushes
`[r, i]` then `[i, c]` for each `i`, the box loop pushes every box cell
other than `(r, c)` holding `val`.  No deduplication is performed. -/
def conflicts (g : Grid) (r c v : Nat) : List (Nat × Nat) :=
  ((List.range 9).flatMap fun i =>
    (if i ≠ c ∧ g r i = v then [(r, i)] else []) ++
    (if i ≠ r ∧ g i c = v then [(i, c)] else [])) ++
  ((List.range 3).flatMap fun dr =>
    (List.range 3).flatMap fun dc =>
      if ¬(3 * (r / 3) + dr = r ∧ 3 * (c / 3) + dc = c) ∧
          g (3 * (r / 3) + dr) (3 * (c / 3) + dc) = v then
        [(3 * (r / 3) + dr, 3 * (c / 3) + dc)]
      else [])

/-- The names returned by `engine.js`'s public-API object
`return { generate, generateAsync, candidates, conflicts };`. -/
def enginePublicAPI : List String :=
  ["generate", "generateAsync", "candidates", "conflicts"]

/-- The `Engine` members that `hints.js` reads at load time:
`const gc = Engine.candidates; const box = Engine.boxOrigin;`. -/
def hintsEngineMembersUsed : List String :=
  ["candidates", "boxOrigin"]

/-- Modelled from the spec: the "box-origin helper referenced as
`Engine.boxOrigin`" — the shared utility that the spec says the core
exposes, but that is absent from the `engine.js` variant under `src/`
(only its callers in `hints.js` and `game.js` are present).  Per the
spec's Box definition and the inlined `3 * ((r / 3) | 0)` used throughout
`engine.js`, it maps an index to the origin of its 3×3 band. -/
def boxOrigin (x : Nat) : Nat := 3 * (x / 3)

/-- The `highlight` record attached to every hint. -/
structure Highlight where
  target : Nat × Nat
  peers : List (Nat × Nat)
  unit : List (Nat × Nat)
  deriving Repr, DecidableEq

/-- A hint produced by `Hints.findMove`.  The `explain` and `lesson`
strings are presentation-only prose assembled from the same data and are
not modelled. -/
structure Hint where
  technique : String
  row : Nat
  col : Nat
  value : Nat
  highlight : Highlight
  deriving Repr, DecidableEq

/-- `Hints.buildPeers(r, c)`: the row, column and box peer lists of a
cell, each excluding the cell itself. -/
structure Peers where
  row : List (Nat × Nat)
  col : List (Nat × Nat)
  box : List (Nat × Nat)

/-- `Hints.buildPeers`. -/
def buildPeers (r c : Nat) : Peers :=
  { row := ((List.range 9).filter fun i => i != c).map fun i => (r, i)
    col := ((List.range 9).filter fun i => i != r).map fun i => (i, c)
    box :=
      (List.range 3).flatMap fun dr =>
        (List.range 3).filterMap fun dc =>
          if boxOrigin r + dr = r ∧ boxOrigin c + dc = c then none
          else some (boxOrigin r + dr, boxOrigin c + dc) }

/-- `Hints.unitCells(type, idx)`. -/
def unitCells (type : String) (idx : Nat) : List (Nat × Nat) :=
  if type = "row" then (List.range 9).map fun c => (idx, c)
  else if type = "col" then (List.range 9).map fun r => (r, idx)
  else
    (List.range 3).flatMap fun dr =>
      (List.range 3).map fun dc => ((idx / 3) * 3 + dr, (idx % 3) * 3 + dc)

/-- The deduplication in `findNakedSingle`: keep the first occurrence of
each cell, keyed by `r * 9 + c` in a `seen` set. -/
def dedupCellsAux : List (Nat × Nat) → List Nat → List (Nat × Nat)
  | [], _ => []
  | p :: rest, seen =>
    if p.1 * 9 + p.2 ∈ seen then dedupCellsAux rest seen
    else p :: dedupCellsAux rest ((p.1 * 9 + p.2) :: seen)

/-- Deduplicate a cell list, keeping first occurrences. -/
def dedupCells (l : List (Nat × Nat)) : List (Nat × Nat) :=
  dedupCellsAux l []

/-- `Hints.findNakedSingle(board)`: first cell in row-major order whose
candidate set has exactly one member.  `[...cands][0]` is rendered as the
head of the set's sorted listing — identical on the singleton sets it is
applied to. -/
def findNakedSingle (g : Grid) : Option Hint :=
  rowMajor.findSome? fun rc =>
    let cands := candidates g rc.1 rc.2
    if cands.card = 1 then
      let peers := buildPeers rc.1 rc.2
      let blocking :=
        (peers.row.filter fun p => g p.1 p.2 != 0) ++
        (peers.col.filter fun p => g p.1 p.2 != 0) ++
        (peers.box.filter fun p => g p.1 p.2 != 0)
      some
        { technique := "Naked Single"
          row := rc.1
          col := rc.2
          value := (cands.sort (· ≤ ·)).headI
          highlight :=
            { target := (rc.1, rc.2)
              peers := dedupCells blocking
              unit := peers.row ++ peers.col ++ peers.box } }
    else none

/-- `unit.type[0].toUpperCase() + unit.type.slice(1)` evaluated on the
three unit-type strings occurring in `findHiddenSingle`. -/
def capUnitType (t : String) : String :=
  if t = "row" then "Row" else if t = "col" then "Col" else "Box"

/-- The 27 units scanned by `findHiddenSingle`: 9 rows, 9 columns, 9 boxes,
each group in index order. -/
def hiddenUnits : List (String × Nat) :=
  ((List.range 9).map fun i => ("row", i)) ++
  ((List.range 9).map fun i => ("col", i)) ++
  ((List.range 9).map fun i => ("box", i))

/-- Body of `findHiddenSingle`'s digit loop for one unit and one digit:
skip if the digit already occurs in the unit, otherwise require exactly
one cell of the unit to have it as a candidate. -/
def hiddenAt (g : Grid) (u : String × Nat) (n : Nat) : Option Hint :=
  let cells := unitCells u.1 u.2
  if cells.any fun p => g p.1 p.2 == n then none
  else
    match cells.filter fun p => decide (n ∈ candidates g p.1 p.2) with
    | [(r, c)] =>
      some
        { technique := "Hidden Single (" ++ capUnitType u.1 ++ ")"
          row := r
          col := c
          value := n
          highlight :=
            { target := (r, c)
              peers := cells.filter fun p => g p.1 p.2 != 0 && !(p.1 == r && p.2 == c)
              unit := cells } }
    | _ => none

/-- `Hints.findHiddenSingle(board)`. -/
def findHiddenSingle (g : Grid) : Option Hint :=
  hiddenUnits.findSome? fun u => digits.findSome? fun n => hiddenAt g u n

/-- `Hints.fallback(board, solution)`: reveal the solution digit at the
first empty cell. -/
def fallback (g sol : Grid) : Option Hint :=
  rowMajor.findSome? fun rc =>
    if g rc.1 rc.2 == 0 then
      let peers := buildPeers rc.1 rc.2
      some
        { technique := "Advanced Technique"
          row := rc.1
          col := rc.2
          value := sol rc.1 rc.2
          highlight :=
            { target := (rc.1, rc.2)
              peers := []
              unit := peers.row ++ peers.col ++ peers.box } }
    else none

/-- `Hints.findMove(board, solution)`:
`findNakedSingle(board) || findHiddenSingle(board) || fallback(board, solution)`. -/
def findMove (g sol : Grid) : Option Hint :=
  match findNakedSingle g with
  | some h => some h
  | none =>
    match findHiddenSingle g with
    | some h => some h
    | none => fallback g sol

/-! ### Specification-side predicates

The following definitions formalise the vocabulary of the specification
(well-formed grid, legal/complete grid, completion, peer values, scan
order); the theorems below compare the source-derived functions against
them. -/

/-- Well-formed board: every cell of the 9×9 square holds a value in
`[0, 9]`. -/
def WellFormed (g : Grid) : Prop :=
  ∀ r < 9, ∀ c < 9, g r c ≤ 9

/-- Every cell of the square is filled. -/
def Complete (g : Grid) : Prop :=
  ∀ r < 9, ∀ c < 9, g r c ≠ 0

/-- Two distinct cells share a unit (row, column, or 3×3 box). -/
def sameUnit (r c r' c' : Nat) : Prop :=
  r = r' ∨ c = c' ∨ (r / 3 = r' / 3 ∧ c / 3 = c' / 3)

/-- No two distinct filled cells in a common unit hold the same value:
the Sudoku constraint on the filled part of a (possibly partial) grid. -/
def ValidPartial (g : Grid) : Prop :=
  ∀ r < 9, ∀ c < 9, ∀ r' < 9, ∀ c' < 9,
    (r, c) ≠ (r', c') → sameUnit r c r' c' → g r c ≠ 0 → g r c ≠ g r' c'

/-- `g'` agrees with `g` on every filled cell of the square. -/
def Extends (g g' : Grid) : Prop :=
  ∀ r < 9, ∀ c < 9, g r c ≠ 0 → g' r c = g r c

/-- `g'` is a full valid completion of `g`: it extends `g`, is complete,
satisfies the Sudoku constraint, and uses only digits 1–9. -/
def IsCompletion (g g' : Grid) : Prop :=
  Extends g g' ∧ Complete g' ∧ ValidPartial g' ∧
    ∀ r < 9, ∀ c < 9, 1 ≤ g' r c ∧ g' r c ≤ 9

instance (g : Grid) : Decidable (WellFormed g) := by
  unfold WellFormed; infer_instance

instance (g : Grid) : Decidable (Complete g) := by
  unfold Complete; infer_instance

instance (r c r' c' : Nat) : Decidable (sameUnit r c r' c') := by
  unfold sameUnit; infer_instance

instance (g : Grid) : Decidable (ValidPartial g) := by
  unfold ValidPartial
  exact @Nat.decidableBallLT 9 _ fun r _ =>
    @Nat.decidableBallLT 9 _ fun c _ =>
      @Nat.decidableBallLT 9 _ fun a _ =>
        @Nat.decidableBallLT 9 _ fun b _ => by infer_instance

instance (g g' : Grid) : Decidable (Extends g g') := by
  unfold Extends; infer_instance

instance (g g' : Grid) : Decidable (IsCompletion g g') := by
  unfold IsCompletion; infer_instance

/-- Decode a function on `Fin 9` (digit ↦ value − 1) into a grid; used to
count completions inside a finite type. -/
def gridOfFn (f : Fin 9 → Fin 9 → Fin 9) : Grid :=
  fun r c =>
    if hr : r < 9 then
      if hc : c < 9 then (f ⟨r, hr⟩ ⟨c, hc⟩).val + 1 else 0
    else 0

/-- Encode a (complete, digits-1–9) grid as a function on `Fin 9`. -/
def fnOfGrid (g : Grid) : Fin 9 → Fin 9 → Fin 9 :=
  fun r c => ⟨(g r.val c.val - 1) % 9, Nat.mod_lt _ (by omega)⟩

/-- The finite set of encoded full valid completions of `g`. -/
def completionSet (g : Grid) : Finset (Fin 9 → Fin 9 → Fin 9) :=
  Finset.univ.filter fun f => IsCompletion g (gridOfFn f)

/-- The number of distinct full valid completions of `g`: the `N` of the
specification's `countSolutions` contract. -/
def numCompletions (g : Grid) : Nat :=
  (completionSet g).card

/-- Number of empty cells of the square. -/
def numEmpty (g : Grid) : Nat :=
  (rowMajor.filter fun rc => g rc.1 rc.2 == 0).length

/-- The values present in row `r`, column `c`, or the box of `(r, c)` —
the peer values the specification says `candidates` must exclude. -/
def peerValues (g : Grid) (r c : Nat) : Finset Nat :=
  ((List.range 9).map fun i => g r i).toFinset ∪
  ((List.range 9).map fun i => g i c).toFinset ∪
  ((List.range 3).flatMap fun dr =>
    (List.range 3).map fun dc => g (3 * (r / 3) + dr) (3 * (c / 3) + dc)).toFinset

/-- The nine values of row `i`. -/
def rowVals (g : Grid) (i : Nat) : List Nat :=
  (List.range 9).map fun c => g i c

/-- The nine values of column `i`. -/
def colVals (g : Grid) (i : Nat) : List Nat :=
  (List.range 9).map fun r => g r i

/-- The nine values of box `b` (boxes indexed 0–8, cells in row-major
order inside the box). -/
def boxVals (g : Grid) (b : Nat) : List Nat :=
  (List.range 9).map fun k => g ((b / 3) * 3 + k / 3) ((b % 3) * 3 + k % 3)

/-- The 243 (unit, digit) pairs in the specification's Hidden-Single scan
order: 9 rows then 9 columns then 9 boxes, digits 1–9 ascending inside
each unit. -/
def hiddenScanPairs : List ((String × Nat) × Nat) :=
  hiddenUnits.flatMap fun u => digits.map fun n => (u, n)

/-- A (unit, digit) pair qualifies for a Hidden Single: the digit is
absent from the unit and exactly one (necessarily empty) cell of the unit
has it as a candidate. -/
def hiddenQualifies (g : Grid) (u : String × Nat) (n : Nat) : Bool :=
  !((unitCells u.1 u.2).any fun p => g p.1 p.2 == n) &&
  ((unitCells u.1 u.2).filter fun p => decide (n ∈ candidates g p.1 p.2)).length == 1

/-- A fixed complete legal grid, used to witness that the all-zero board
has a completion. -/
def solvedGrid : Grid :=
  ofRows
    [[1, 2, 3, 4, 5, 6, 7, 8, 9],
     [4, 5, 6, 7, 8, 9, 1, 2, 3],
     [7, 8, 9, 1, 2, 3, 4, 5, 6],
     [2, 3, 4, 5, 6, 7, 8, 9, 1],
     [5, 6, 7, 8, 9, 1, 2, 3, 4],
     [8, 9, 1, 2, 3, 4, 5, 6, 7],
     [3, 4, 5, 6, 7, 8, 9, 1, 2],
     [6, 7, 8, 9, 1, 2, 3, 4, 5],
     [9, 1, 2, 3, 4, 5, 6, 7, 8]]

/-! ### Basic lemmas: cells, row-major scan, empty-cell counting -/

theorem setCell_self (g : Grid) (r c : Nat) : setCell g r c (g r c) = g := by
  funext r' c'
  simp only [setCell]
  split
  · next h => rw [h.1, h.2]
  · rfl

theorem setCell_read (g : Grid) (r c v : Nat) : setCell g r c v r c = v := by
  simp [setCell]

theorem setCell_read_ne (g : Grid) (r c v r' c' : Nat)
    (h : ¬(r' = r ∧ c' = c)) : setCell g r c v r' c' = g r' c' := by
  simp [setCell, h]

theorem setCell_restore (g : Grid) (r c v : Nat) :
    setCell (setCell g r c v) r c (g r c) = g := by
  funext r' c'
  simp only [setCell]
  split
  · next h => rw [h.1, h.2]
  · rfl

theorem mem_rowMajor {rc : Nat × Nat} : rc ∈ rowMajor ↔ rc.1 < 9 ∧ rc.2 < 9 := by
  obtain ⟨r, c⟩ := rc
  simp only [rowMajor, List.mem_map, List.mem_range, Prod.mk.injEq]
  constructor
  · rintro ⟨i, hi, rfl, rfl⟩
    omega
  · rintro ⟨h1, h2⟩
    exact ⟨r * 9 + c, by omega, by omega, by omega⟩

theorem rowMajor_nodup : rowMajor.Nodup := by decide

theorem findEmpty_eq_none_iff {g : Grid} : findEmpty g = none ↔ Complete g := by
  simp only [findEmpty, List.find?_eq_none, Complete]
  constructor
  · intro h r hr c hc
    have := h (r, c) (mem_rowMajor.2 ⟨hr, hc⟩)
    simpa using this
  · intro h rc hrc
    have := h rc.1 (mem_rowMajor.1 hrc).1 rc.2 (mem_rowMajor.1 hrc).2
    simpa using this

theorem findEmpty_eq_some {g : Grid} {r c : Nat}
    (h : findEmpty g = some (r, c)) : g r c = 0 ∧ r < 9 ∧ c < 9 := by
  have h1 := List.find?_some h
  have h2 := mem_rowMajor.1 (List.mem_of_find?_eq_some h)
  simp only [beq_iff_eq] at h1
  exact ⟨h1, h2⟩

theorem numEmpty_le_81 (g : Grid) : numEmpty g ≤ 81 :=
  le_trans (List.length_filter_le _ _) (by decide)

theorem numEmpty_pos {g : Grid} {rc : Nat × Nat}
    (h : findEmpty g = some rc) : 1 ≤ numEmpty g := by
  unfold findEmpty at h
  have hp := List.find?_some h
  have hmem : rc ∈ rowMajor.filter fun p => g p.1 p.2 == 0 :=
    List.mem_filter.2 ⟨List.mem_of_find?_eq_some h, hp⟩
  exact List.length_pos.2 (List.ne_nil_of_mem hmem)

theorem filter_setCell_aux (g : Grid) {r c : Nat} (n : Nat) (hg : g r c = 0)
    (hn : n ≠ 0) :
    ∀ l : List (Nat × Nat), l.Nodup → (r, c) ∈ l →
      (l.filter fun rc => setCell g r c n rc.1 rc.2 == 0).length + 1 =
        (l.filter fun rc => g rc.1 rc.2 == 0).length := by
  intro l
  induction l with
  | nil => intro _ h; cases h
  | cons x t ih =>
    intro hnd hmem
    rcases List.mem_cons.1 hmem with hx | hx
    · subst hx
      have hset : setCell g r c n r c = n := setCell_read g r c n
      have htail : ∀ y ∈ t, (fun rc => setCell g r c n rc.1 rc.2 == 0) y =
          (fun rc => g rc.1 rc.2 == 0) y := by
        intro y hy
        have hne : y ≠ (r, c) := by
          intro h; exact (List.nodup_cons.1 hnd).1 (h ▸ hy)
        have : ¬(y.1 = r ∧ y.2 = c) := by
          intro hcon
          exact hne (Prod.ext hcon.1 hcon.2)
        simp [setCell_read_ne g r c n _ _ this]
      rw [List.filter_cons, List.filter_cons]
      simp only [hset, hg]
      rw [List.filter_congr htail]
      simp [hn]
    · have hne : x ≠ (r, c) := by
        intro h
        exact (List.nodup_cons.1 hnd).1 (h ▸ hx)
      have hxx : ¬(x.1 = r ∧ x.2 = c) := by
        intro hcon
        exact hne (Prod.ext hcon.1 hcon.2)
      rw [List.filter_cons, List.filter_cons]
      rw [setCell_read_ne g r c n _ _ hxx]
      split
      · simpa using ih (List.nodup_cons.1 hnd).2 hx
      · exact ih (List.nodup_cons.1 hnd).2 hx

theorem numEmpty_setCell {g : Grid} {r c n : Nat} (hg : g r c = 0)
    (hr : r < 9) (hc : c < 9) (hn : n ≠ 0) :
    numEmpty (setCell g r c n) + 1 = numEmpty g :=
  filter_setCell_aux g n hg hn rowMajor rowMajor_nodup
    (mem_rowMajor.2 ⟨hr, hc⟩)

/-! ### Characterising `isValid` and `candidates` -/

theorem isValid_iff {g : Grid} {r c n : Nat} :
    isValid g r c n = true ↔
      (∀ i < 9, g r i ≠ n ∧ g i c ≠ n) ∧
        ∀ dr < 3, ∀ dc < 3, g (3 * (r / 3) + dr) (3 * (c / 3) + dc) ≠ n := by
  simp [isValid, List.all_eq_true, List.mem_range]

theorem mem_foldl_iff {α : Type} {F : Finset Nat → α → Finset Nat}
    {P : α → Nat → Prop} (hF : ∀ s x v, v ∈ F s x ↔ v ∈ s ∧ P x v) :
    ∀ (l : List α) (s0 : Finset Nat) (v : Nat),
      v ∈ l.foldl F s0 ↔ v ∈ s0 ∧ ∀ x ∈ l, P x v := by
  intro l
  induction l with
  | nil => intro s0 v; simp
  | cons a t ih =>
    intro s0 v
    rw [List.foldl_cons, ih, hF]
    constructor
    · rintro ⟨⟨hv, hp⟩, ht⟩
      exact ⟨hv, by simpa [hp] using ht⟩
    · rintro ⟨hv, ht⟩
      refine ⟨⟨hv, ht a (List.mem_cons_self a t)⟩, fun x hx => ht x (List.mem_cons_of_mem a hx)⟩

theorem mem_candidates_iff {g : Grid} {r c v : Nat} :
    v ∈ candidates g r c ↔
      g r c = 0 ∧ (1 ≤ v ∧ v ≤ 9) ∧ (∀ i < 9, g r i ≠ v ∧ g i c ≠ v) ∧
        ∀ dr < 3, ∀ dc < 3, g (3 * (r / 3) + dr) (3 * (c / 3) + dc) ≠ v := by
  unfold candidates
  split
  · next h => simp [h]
  · next h =>
    rw [mem_foldl_iff (P := fun dr v => ∀ dc < 3,
        g (3 * (r / 3) + dr) (3 * (c / 3) + dc) ≠ v)
      (fun s dr v => by
        rw [mem_foldl_iff (P := fun dc v =>
            g (3 * (r / 3) + dr) (3 * (c / 3) + dc) ≠ v)
          (fun t dc v => Finset.mem_erase.trans (by tauto))]
        simp [List.mem_range])]
    rw [mem_foldl_iff (P := fun i v => g r i ≠ v ∧ g i c ≠ v)
      (fun s i v => by
        rw [Finset.mem_erase, Finset.mem_erase]
        tauto)]
    have hmem : v ∈ ({1, 2, 3, 4, 5, 6, 7, 8, 9} : Finset Nat) ↔ 1 ≤ v ∧ v ≤ 9 := by
      simp only [Finset.mem_insert, Finset.mem_singleton]
      omega
    rw [hmem]
    simp only [List.mem_range]
    tauto

/-! ### The Fisher-Yates shuffle produces a permutation -/

theorem cons_set_perm {α : Type} (b : α) :
    ∀ (xs : List α) (k : Nat) (a : α), xs[k]? = some b →
      List.Perm (b :: xs.set k a) (a :: xs) := by
  intro xs
  induction xs with
  | nil => intro k a h; simp at h
  | cons x t ih =>
    intro k a h
    cases k with
    | zero =>
      simp only [List.getElem?_cons_zero, Option.some.injEq] at h
      subst h
      simpa using List.Perm.swap a x t
    | succ k =>
      simp only [List.getElem?_cons_succ] at h
      have step1 : List.Perm (b :: x :: t.set k a) (x :: b :: t.set k a) :=
        List.Perm.swap x b _
      have step2 : List.Perm (x :: b :: t.set k a) (x :: a :: t) :=
        (ih k a h).cons x
      have step3 : List.Perm (x :: a :: t) (a :: x :: t) := List.Perm.swap a x t
      simpa using (step1.trans step2).trans step3

theorem set_set_perm_swap {α : Type} :
    ∀ (l : List α) (i j : Nat) (h₁ : i < l.length) (h₂ : j < l.length),
      List.Perm ((l.set i l[j]).set j l[i]) l := by
  intro l
  induction l with
  | nil => intro i j h₁ _; simp at h₁
  | cons x t ih =>
    intro i j h₁ h₂
    cases i with
    | zero =>
      cases j with
      | zero => simp
      | succ k =>
        simp only [List.getElem_cons_succ, List.getElem_cons_zero,
          List.set_cons_zero, List.set_cons_succ]
        exact cons_set_perm _ t k x
          (List.getElem?_eq_getElem (by simpa using h₂))
    | succ m =>
      cases j with
      | zero =>
        simp only [List.getElem_cons_zero, List.getElem_cons_succ,
          List.set_cons_succ, List.set_cons_zero]
        exact cons_set_perm _ t m x
          (List.getElem?_eq_getElem (by simpa using h₁))
      | succ k =>
        simp only [List.getElem_cons_succ, List.set_cons_succ]
        exact (ih m k (by simpa using h₁) (by simpa using h₂)).cons x

theorem listSwap_perm {α : Type} (l : List α) (i j : Nat) :
    List.Perm (listSwap l i j) l := by
  unfold listSwap
  split
  · next h => exact set_set_perm_swap l i j h.1 h.2
  · exact List.Perm.refl l

theorem fyAux_perm {α : Type} (f : Nat → Nat) :
    ∀ (i : Nat) (a : List α), List.Perm (fyAux f i a) a := by
  intro i
  induction i with
  | zero => intro a; exact List.Perm.refl a
  | succ i ih =>
    intro a
    exact (ih _).trans (listSwap_perm a (i + 1) (f (i + 1) % (i + 2)))

theorem shuffle_perm {α : Type} (arr : List α) (f : Nat → Nat) :
    List.Perm (shuffle arr f) arr :=
  fyAux_perm f (arr.length - 1) arr

theorem mem_shuffle {α : Type} {arr : List α} {f : Nat → Nat} {x : α} :
    x ∈ shuffle arr f ↔ x ∈ arr :=
  (shuffle_perm arr f).mem_iff

/-! ### Soundness and completeness of `fillBoard` -/

theorem mem_digits {n : Nat} : n ∈ digits ↔ 1 ≤ n ∧ n ≤ 9 := by
  simp only [digits, List.mem_cons, List.not_mem_nil, or_false]
  omega

theorem extends_setCell {g : Grid} {r c n : Nat} (hrc : g r c = 0) :
    Extends g (setCell g r c n) := by
  intro a ha b hb hab
  apply setCell_read_ne
  rintro ⟨rfl, rfl⟩
  exact hab hrc

theorem extends_trans_setCell {g g' : Grid} {r c n : Nat} (hrc : g r c = 0)
    (h : Extends (setCell g r c n) g') : Extends g g' := by
  intro a ha b hb hab
  have hne : ¬(a = r ∧ b = c) := by
    rintro ⟨rfl, rfl⟩
    exact hab hrc
  have := h a ha b hb (by rw [setCell_read_ne g r c n a b hne]; exact hab)
  rwa [setCell_read_ne g r c n a b hne] at this

theorem isCompletion_setCell {g g' : Grid} {r c : Nat}
    (hcomp : IsCompletion g g') (hrc : g r c = 0) :
    IsCompletion (setCell g r c (g' r c)) g' := by
  obtain ⟨hext, hcpl, hvp, hrange⟩ := hcomp
  refine ⟨?_, hcpl, hvp, hrange⟩
  intro a ha b hb hab
  by_cases h : a = r ∧ b = c
  · obtain ⟨rfl, rfl⟩ := h
    rw [setCell_read]
  · rw [setCell_read_ne g r c _ a b h] at hab ⊢
    exact hext a ha b hb hab

theorem isValid_of_completion {g g' : Grid} {r c : Nat}
    (hcomp : IsCompletion g g') (hrc : g r c = 0) (hr : r < 9) (hc : c < 9) :
    isValid g r c (g' r c) = true := by
  obtain ⟨hext, hcpl, hvp, hrange⟩ := hcomp
  have hd : 1 ≤ g' r c ∧ g' r c ≤ 9 := hrange r hr c hc
  rw [isValid_iff]
  refine ⟨fun i hi => ⟨?_, ?_⟩, fun dr hdr dc hdc => ?_⟩
  · intro hval
    have hne : g r i ≠ 0 := by rw [hval]; omega
    have hic : i ≠ c := by rintro rfl; exact hne hrc
    have hgi : g' r i = g r i := hext r hr i hi hne
    have := hvp r hr i hi r hr c hc (by simp [hic]) (Or.inl rfl) (by omega)
    rw [hgi, hval] at this
    exact this rfl
  · intro hval
    have hne : g i c ≠ 0 := by rw [hval]; omega
    have hir : i ≠ r := by rintro rfl; exact hne hrc
    have hgi : g' i c = g i c := hext i hi c hc hne
    have := hvp i hi c hc r hr c hc (by simp [hir]) (Or.inr (Or.inl rfl)) (by omega)
    rw [hgi, hval] at this
    exact this rfl
  · intro hval
    have ha : 3 * (r / 3) + dr < 9 := by omega
    have hb : 3 * (c / 3) + dc < 9 := by omega
    have hne : g (3 * (r / 3) + dr) (3 * (c / 3) + dc) ≠ 0 := by rw [hval]; omega
    have hnrc : ¬(3 * (r / 3) + dr = r ∧ 3 * (c / 3) + dc = c) := by
      rintro ⟨h1, h2⟩
      rw [h1, h2] at hne
      exact hne hrc
    have hgi : g' (3 * (r / 3) + dr) (3 * (c / 3) + dc) =
        g (3 * (r / 3) + dr) (3 * (c / 3) + dc) := hext _ ha _ hb hne
    have hsu : sameUnit (3 * (r / 3) + dr) (3 * (c / 3) + dc) r c :=
      Or.inr (Or.inr ⟨by omega, by omega⟩)
    have := hvp _ ha _ hb r hr c hc
      (by simp only [Ne, Prod.mk.injEq]; exact hnrc) hsu (by omega)
    rw [hgi, hval] at this
    exact this rfl

theorem validPartial_setCell {g : Grid} {r c n : Nat} (hr : r < 9) (hc : c < 9)
    (hrc : g r c = 0) (hv : isValid g r c n = true) (hVP : ValidPartial g) :
    ValidPartial (setCell g r c n) := by
  rw [isValid_iff] at hv
  intro a ha b hb a' ha' b' hb' hne hsu hz
  by_cases h1 : a = r ∧ b = c
  · obtain ⟨rfl, rfl⟩ := h1
    rw [setCell_read] at hz ⊢
    by_cases h2 : a' = a ∧ b' = b
    · exact absurd (Prod.ext h2.1.symm h2.2.symm) hne
    · rw [setCell_read_ne g a b n a' b' h2]
      rcases Nat.eq_zero_or_pos (g a' b') with hzero | hpos
      · rw [hzero]; exact hz
      · rcases hsu with hrow | hcol | hbox
        · exact fun hcon => (hv.1 b' hb').1 (by rw [hrow]; exact hcon.symm)
        · exact fun hcon => (hv.1 a' ha').2 (by rw [hcol]; exact hcon.symm)
        · intro hcon
          have hdr : a' - 3 * (a / 3) < 3 := by omega
          have hdc : b' - 3 * (b / 3) < 3 := by omega
          have := hv.2 (a' - 3 * (a / 3)) hdr (b' - 3 * (b / 3)) hdc
          have he1 : 3 * (a / 3) + (a' - 3 * (a / 3)) = a' := by omega
          have he2 : 3 * (b / 3) + (b' - 3 * (b / 3)) = b' := by omega
          rw [he1, he2] at this
          exact this (by rw [hcon])
  · rw [setCell_read_ne g r c n a b h1] at hz ⊢
    by_cases h2 : a' = r ∧ b' = c
    · obtain ⟨rfl, rfl⟩ := h2
      rw [setCell_read]
      rcases hsu with hrow | hcol | hbox
      · exact fun hcon => (hv.1 b hb).1 (by rw [← hrow]; exact hcon)
      · exact fun hcon => (hv.1 a ha).2 (by rw [← hcol]; exact hcon)
      · intro hcon
        have hdr : a - 3 * (a' / 3) < 3 := by omega
        have hdc : b - 3 * (b' / 3) < 3 := by omega
        have := hv.2 (a - 3 * (a' / 3)) hdr (b - 3 * (b' / 3)) hdc
        have he1 : 3 * (a' / 3) + (a - 3 * (a' / 3)) = a := by omega
        have he2 : 3 * (b' / 3) + (b - 3 * (b' / 3)) = b := by omega
        rw [he1, he2] at this
        exact this hcon
    · rw [setCell_read_ne g r c n a' b' h2]
      exact hVP a ha b hb a' ha' b' hb' hne hsu hz

theorem tryDigits_sound {next : Grid → Option Grid} {g : Grid} {r c : Nat} :
    ∀ (ns : List Nat) (g' : Grid), tryDigits next g r c ns = some g' →
      ∃ n ∈ ns, isValid g r c n = true ∧ next (setCell g r c n) = some g' := by
  intro ns
  induction ns with
  | nil => intro g' h; simp [tryDigits] at h
  | cons n rest ih =>
    intro g' h
    unfold tryDigits at h
    by_cases hv : isValid g r c n
    · rw [if_pos hv] at h
      cases hnext : next (setCell g r c n) with
      | some g'' =>
        rw [hnext] at h
        cases h
        exact ⟨n, List.mem_cons_self n rest, hv, hnext⟩
      | none =>
        rw [hnext] at h
        obtain ⟨m, hm, hm2, hm3⟩ := ih g' h
        exact ⟨m, List.mem_cons_of_mem n hm, hm2, hm3⟩
    · rw [if_neg hv] at h
      obtain ⟨m, hm, hm2, hm3⟩ := ih g' h
      exact ⟨m, List.mem_cons_of_mem n hm, hm2, hm3⟩

theorem tryDigits_isSome {next : Grid → Option Grid} {g : Grid} {r c : Nat} :
    ∀ ns : List Nat,
      (∃ n ∈ ns, isValid g r c n = true ∧ (next (setCell g r c n)).isSome) →
        (tryDigits next g r c ns).isSome := by
  intro ns
  induction ns with
  | nil => rintro ⟨n, hn, _⟩; cases hn
  | cons m rest ih =>
    rintro ⟨n, hn, hv, hsome⟩
    unfold tryDigits
    rcases List.mem_cons.1 hn with rfl | hn'
    · rw [if_pos hv]
      cases hnext : next (setCell g r c n) with
      | some g'' => simp
      | none => rw [hnext] at hsome; cases hsome
    · by_cases hvm : isValid g r c m
      · rw [if_pos hvm]
        cases hnext : next (setCell g r c m) with
        | some g'' => simp
        | none => exact ih ⟨n, hn', hv, hsome⟩
      · rw [if_neg hvm]
        exact ih ⟨n, hn', hv, hsome⟩

theorem fillBoardAux_sound {rand : Grid → Nat → Nat} :
    ∀ (fuel : Nat) (g g' : Grid), fillBoardAux rand fuel g = some g' →
      Extends g g' ∧ Complete g' ∧
        (∀ r < 9, ∀ c < 9, g r c = 0 → 1 ≤ g' r c ∧ g' r c ≤ 9) ∧
        (ValidPartial g → ValidPartial g') := by
  intro fuel
  induction fuel with
  | zero =>
    intro g g' h
    unfold fillBoardAux at h
    cases hfe : findEmpty g with
    | none =>
      rw [hfe] at h
      cases h
      have hcpl := findEmpty_eq_none_iff.1 hfe
      exact ⟨fun a _ b _ _ => rfl, hcpl,
        fun r hr c hc hz => absurd hz (hcpl r hr c hc), id⟩
    | some rc => rw [hfe] at h; cases h
  | succ fuel ih =>
    intro g g' h
    unfold fillBoardAux at h
    cases hfe : findEmpty g with
    | none =>
      rw [hfe] at h
      cases h
      have hcpl := findEmpty_eq_none_iff.1 hfe
      exact ⟨fun a _ b _ _ => rfl, hcpl,
        fun r hr c hc hz => absurd hz (hcpl r hr c hc), id⟩
    | some rc =>
      obtain ⟨r, c⟩ := rc
      rw [hfe] at h
      obtain ⟨hrc, hr, hc⟩ := findEmpty_eq_some hfe
      obtain ⟨n, hn, hv, hnext⟩ := tryDigits_sound _ g' h
      have hn19 : 1 ≤ n ∧ n ≤ 9 := mem_digits.1 (mem_shuffle.1 hn)
      obtain ⟨hext, hcpl, hrange, hvp⟩ := ih (setCell g r c n) g' hnext
      refine ⟨extends_trans_setCell hrc hext, hcpl, ?_, ?_⟩
      · intro a ha b hb hz
        by_cases hab : a = r ∧ b = c
        · obtain ⟨rfl, rfl⟩ := hab
          have : g' a b = n := by
            have := hext a ha b hb (by rw [setCell_read]; omega)
            rwa [setCell_read] at this
          omega
        · exact hrange a ha b hb (by rwa [setCell_read_ne g r c n a b hab])
      · intro hVP
        exact hvp (validPartial_setCell hr hc hrc hv hVP)

theorem fillBoardAux_complete {rand : Grid → Nat → Nat} :
    ∀ (fuel : Nat) (g : Grid), numEmpty g ≤ fuel → ValidPartial g →
      (∃ g', IsCompletion g g') → (fillBoardAux rand fuel g).isSome := by
  intro fuel
  induction fuel with
  | zero =>
    intro g hfuel _ _
    unfold fillBoardAux
    cases hfe : findEmpty g with
    | none => simp
    | some rc => exact absurd (numEmpty_pos hfe) (by omega)
  | succ fuel ih =>
    intro g hfuel hVP hex
    unfold fillBoardAux
    cases hfe : findEmpty g with
    | none => simp
    | some rc =>
      obtain ⟨r, c⟩ := rc
      obtain ⟨hrc, hr, hc⟩ := findEmpty_eq_some hfe
      obtain ⟨g', hcomp⟩ := hex
      have hd : 1 ≤ g' r c ∧ g' r c ≤ 9 := hcomp.2.2.2 r hr c hc
      apply tryDigits_isSome
      refine ⟨g' r c, mem_shuffle.2 (mem_digits.2 hd), ?_, ?_⟩
      · exact isValid_of_completion hcomp hrc hr hc
      · apply ih
        · have := numEmpty_setCell hrc hr hc (show g' r c ≠ 0 by omega)
          omega
        · exact validPartial_setCell hr hc hrc
            (isValid_of_completion hcomp hrc hr hc) hVP
        · exact ⟨g', isCompletion_setCell hcomp hrc⟩

/-- The all-zero board. -/
def zeroGrid : Grid := fun _ _ => 0

theorem zeroGrid_validPartial : ValidPartial zeroGrid := by
  intro a _ b _ a' _ b' _ _ _ hz
  exact absurd rfl hz

theorem solvedGrid_completes_zero : IsCompletion zeroGrid solvedGrid := by
  decide

theorem fillBoard_success (rand : Grid → Nat → Nat) :
    ∃ g', fillBoard zeroGrid rand = some g' ∧ Complete g' ∧ ValidPartial g' ∧
      ∀ r < 9, ∀ c < 9, 1 ≤ g' r c ∧ g' r c ≤ 9 := by
  have hsome : (fillBoardAux rand 81 zeroGrid).isSome :=
    fillBoardAux_complete 81 zeroGrid (numEmpty_le_81 _) zeroGrid_validPartial
      ⟨solvedGrid, solvedGrid_completes_zero⟩
  cases hfill : fillBoardAux rand 81 zeroGrid with
  | none => rw [hfill] at hsome; cases hsome
  | some g' =>
    obtain ⟨_, hcpl, hrange, hvp⟩ := fillBoardAux_sound 81 zeroGrid g' hfill
    exact ⟨g', hfill, hcpl, hvp zeroGrid_validPartial,
      fun r hr c hc => hrange r hr c hc rfl⟩

theorem generatedBoard_spec (randF : Grid → Nat → Nat) :
    Complete (generatedBoard randF) ∧ ValidPartial (generatedBoard randF) ∧
      ∀ r < 9, ∀ c < 9,
        1 ≤ generatedBoard randF r c ∧ generatedBoard randF r c ≤ 9 := by
  obtain ⟨g', hfill, hcpl, hvp, hrange⟩ := fillBoard_success randF
  unfold generatedBoard
  rw [show fillBoard (fun _ _ => 0) randF = some g' from hfill]
  exact ⟨hcpl, hvp, hrange⟩

/-! ### `countSolutions` on a complete grid, and the removal loop -/

theorem solveCount_complete {g : Grid} (h : Complete g) {m : Nat} (hm : 1 ≤ m)
    (fuel : Nat) : solveCount m fuel g 0 = 1 := by
  unfold solveCount
  rw [if_neg (by omega), findEmpty_eq_none_iff.2 h]

theorem solveCount_of_le {max fuel count : Nat} {g : Grid} (h : max ≤ count) :
    solveCount max fuel g count = count := by
  unfold solveCount
  rw [if_pos h]

theorem solveCount_of_none {max fuel count : Nat} {g : Grid} (h : ¬ max ≤ count)
    (hfe : findEmpty g = none) : solveCount max fuel g count = count + 1 := by
  unfold solveCount
  rw [if_neg h, hfe]

theorem solveCount_succ_of_some {max fuel count : Nat} {g : Grid} {r c : Nat}
    (h : ¬ max ≤ count) (hfe : findEmpty g = some (r, c)) :
    solveCount max (fuel + 1) g count =
      csDigits (fun g' cnt => solveCount max fuel g' cnt) g r c max
        digits count := by
  conv_lhs => unfold solveCount
  rw [if_neg h, hfe]

theorem one_le_maxDefault : ∀ max?, 1 ≤ maxDefault max?
  | none => by decide
  | some 0 => by decide
  | some (k + 1) => by show 1 ≤ k + 1; omega

theorem countSolutions_eq_solveCount (g : Grid) (max? : Option Nat) :
    countSolutions g max? = solveCount (maxDefault max?) 81 g 0 := rfl

theorem countSolutions_none_eq_some_two (g : Grid) :
    countSolutions g none = countSolutions g (some 2) := by
  have hm : maxDefault none = maxDefault (some 2) := rfl
  rw [countSolutions_eq_solveCount, countSolutions_eq_solveCount, hm]

theorem countSolutions_complete {g : Grid} (h : Complete g) (max? : Option Nat) :
    countSolutions g max? = 1 := by
  rw [countSolutions_eq_solveCount]
  exact solveCount_complete h (one_le_maxDefault max?) 81

theorem removeLoop_unique {t : Nat} :
    ∀ (ps : List (Nat × Nat)) (p : Grid) (removed : Nat),
      countSolutions p none = 1 →
        countSolutions (removeLoop t ps p removed) none = 1 := by
  intro ps
  induction ps with
  | nil => intro p removed h; exact h
  | cons rc rest ih =>
    intro p removed h
    obtain ⟨r, c⟩ := rc
    show countSolutions
      (if t ≤ removed then p
        else if countSolutions (setCell p r c 0) none = 1 then
          removeLoop t rest (setCell p r c 0) (removed + 1)
        else removeLoop t rest (setCell (setCell p r c 0) r c (p r c)) removed)
      none = 1
    by_cases h1 : t ≤ removed
    · rwa [if_pos h1]
    · rw [if_neg h1]
      by_cases h2 : countSolutions (setCell p r c 0) none = 1
      · rw [if_pos h2]
        exact ih _ _ h2
      · rw [if_neg h2, setCell_restore]
        exact ih _ _ h

theorem removeLoop_subset {t : Nat} {sol : Grid} :
    ∀ (ps : List (Nat × Nat)) (p : Grid) (removed : Nat),
      (∀ r c, p r c = 0 ∨ p r c = sol r c) →
        ∀ r c, removeLoop t ps p removed r c = 0 ∨
          removeLoop t ps p removed r c = sol r c := by
  intro ps
  induction ps with
  | nil => intro p removed h; exact h
  | cons rc rest ih =>
    intro p removed h
    obtain ⟨r, c⟩ := rc
    have hstep : removeLoop t ((r, c) :: rest) p removed =
        if t ≤ removed then p
        else if countSolutions (setCell p r c 0) none = 1 then
          removeLoop t rest (setCell p r c 0) (removed + 1)
        else removeLoop t rest (setCell (setCell p r c 0) r c (p r c)) removed :=
      rfl
    rw [hstep]
    by_cases h1 : t ≤ removed
    · rw [if_pos h1]; exact h
    · rw [if_neg h1]
      by_cases h2 : countSolutions (setCell p r c 0) none = 1
      · rw [if_pos h2]
        apply ih
        intro a b
        by_cases hab : a = r ∧ b = c
        · obtain ⟨rfl, rfl⟩ := hab
          left; exact setCell_read p a b 0
        · rw [setCell_read_ne p r c 0 a b hab]
          exact h a b
      · rw [if_neg h2, setCell_restore]
        exact ih _ _ h

theorem numEmpty_setCell_zero_le {p : Grid} {r c : Nat} (hr : r < 9)
    (hc : c < 9) : numEmpty (setCell p r c 0) ≤ numEmpty p + 1 := by
  by_cases hz : p r c = 0
  · rw [← hz, setCell_self]
    omega
  · have := numEmpty_setCell (g := setCell p r c 0) (r := r) (c := c)
      (n := p r c) (setCell_read p r c 0) hr hc hz
    rw [setCell_restore] at this
    omega

theorem removeLoop_zeros {t : Nat} :
    ∀ (ps : List (Nat × Nat)) (p : Grid) (removed : Nat),
      (∀ rc ∈ ps, rc ∈ rowMajor) → numEmpty p ≤ removed → removed ≤ t →
        numEmpty (removeLoop t ps p removed) ≤ t := by
  intro ps
  induction ps with
  | nil => intro p removed _ h1 h2; exact le_trans h1 h2
  | cons rc rest ih =>
    intro p removed hps h1 h2
    obtain ⟨r, c⟩ := rc
    obtain ⟨hr, hc⟩ := mem_rowMajor.1 (hps (r, c) (List.mem_cons_self _ _))
    have hrest : ∀ x ∈ rest, x ∈ rowMajor := fun x hx =>
      hps x (List.mem_cons_of_mem _ hx)
    show numEmpty
      (if t ≤ removed then p
        else if countSolutions (setCell p r c 0) none = 1 then
          removeLoop t rest (setCell p r c 0) (removed + 1)
        else removeLoop t rest (setCell (setCell p r c 0) r c (p r c)) removed)
      ≤ t
    by_cases hl : t ≤ removed
    · rw [if_pos hl]; omega
    · rw [if_neg hl]
      by_cases hcount : countSolutions (setCell p r c 0) none = 1
      · rw [if_pos hcount]
        exact ih _ _ hrest
          (le_trans (numEmpty_setCell_zero_le hr hc) (by omega)) (by omega)
      · rw [if_neg hcount, setCell_restore]
        exact ih _ _ hrest h1 h2

theorem numEmpty_complete {g : Grid} (h : Complete g) : numEmpty g = 0 := by
  unfold numEmpty
  rw [List.length_eq_zero]
  rw [List.filter_eq_nil_iff]
  intro rc hrc
  have := h rc.1 (mem_rowMajor.1 hrc).1 rc.2 (mem_rowMajor.1 hrc).2
  simpa using this

/-! ### Units of a complete legal grid are permutations of 1–9 -/

theorem unit_perm_digits {l : List Nat} (hlen : l.length = 9) (hnd : l.Nodup)
    (hsub : ∀ x ∈ l, x ∈ digits) : List.Perm l digits :=
  (List.subperm_of_subset hnd hsub).perm_of_length_le (by rw [hlen]; rfl)

theorem rowVals_perm {g : Grid} (hc : Complete g) (hv : ValidPartial g)
    (hrange : ∀ r < 9, ∀ c < 9, 1 ≤ g r c ∧ g r c ≤ 9) {i : Nat} (hi : i < 9) :
    List.Perm (rowVals g i) digits := by
  apply unit_perm_digits
  · simp [rowVals]
  · refine List.Nodup.map_on ?_ (List.nodup_range 9)
    intro x hx y hy hxy
    rw [List.mem_range] at hx hy
    by_contra hne
    have hnz : g i x ≠ 0 := by have := hrange i hi x hx; omega
    exact hv i hi x hx i hi y hy (by simp [hne]) (Or.inl rfl) hnz hxy
  · intro x hx
    simp only [rowVals, List.mem_map, List.mem_range] at hx
    obtain ⟨c, hc9, rfl⟩ := hx
    exact mem_digits.2 (hrange i hi c hc9)

theorem colVals_perm {g : Grid} (hc : Complete g) (hv : ValidPartial g)
    (hrange : ∀ r < 9, ∀ c < 9, 1 ≤ g r c ∧ g r c ≤ 9) {i : Nat} (hi : i < 9) :
    List.Perm (colVals g i) digits := by
  apply unit_perm_digits
  · simp [colVals]
  · refine List.Nodup.map_on ?_ (List.nodup_range 9)
    intro x hx y hy hxy
    rw [List.mem_range] at hx hy
    by_contra hne
    have hnz : g x i ≠ 0 := by have := hrange x hx i hi; omega
    exact hv x hx i hi y hy i hi (by simp [hne]) (Or.inr (Or.inl rfl)) hnz hxy
  · intro x hx
    simp only [colVals, List.mem_map, List.mem_range] at hx
    obtain ⟨r, hr9, rfl⟩ := hx
    exact mem_digits.2 (hrange r hr9 i hi)

theorem boxVals_perm {g : Grid} (hc : Complete g) (hv : ValidPartial g)
    (hrange : ∀ r < 9, ∀ c < 9, 1 ≤ g r c ∧ g r c ≤ 9) {b : Nat} (hb : b < 9) :
    List.Perm (boxVals g b) digits := by
  apply unit_perm_digits
  · simp [boxVals]
  · refine List.Nodup.map_on ?_ (List.nodup_range 9)
    intro x hx y hy hxy
    rw [List.mem_range] at hx hy
    by_contra hne
    have hA : b / 3 * 3 + x / 3 < 9 := by omega
    have hB : b % 3 * 3 + x % 3 < 9 := by omega
    have hA' : b / 3 * 3 + y / 3 < 9 := by omega
    have hB' : b % 3 * 3 + y % 3 < 9 := by omega
    have hnz : g (b / 3 * 3 + x / 3) (b % 3 * 3 + x % 3) ≠ 0 := by
      have := hrange _ hA _ hB; omega
    have hpairs : (b / 3 * 3 + x / 3, b % 3 * 3 + x % 3) ≠
        (b / 3 * 3 + y / 3, b % 3 * 3 + y % 3) := by
      simp only [Ne, Prod.mk.injEq]
      omega
    have hsu : sameUnit (b / 3 * 3 + x / 3) (b % 3 * 3 + x % 3)
        (b / 3 * 3 + y / 3) (b % 3 * 3 + y % 3) :=
      Or.inr (Or.inr ⟨by omega, by omega⟩)
    exact hv _ hA _ hB _ hA' _ hB' hpairs hsu hnz hxy
  · intro x hx
    simp only [boxVals, List.mem_map, List.mem_range] at hx
    obtain ⟨k, hk9, rfl⟩ := hx
    exact mem_digits.2 (hrange _ (by omega) _ (by omega))

/-! ### Claim theorems for the generator -/

theorem generate_puzzle_def (d : String) (randF : Grid → Nat → Nat)
    (randP : Nat → Nat) :
    (generate d randF randP).puzzle =
      removeLoop ((REMOVALS d).getD 38) (shuffle rowMajor randP)
        (generatedBoard randF) 0 := by
  unfold generate
  simp only []

theorem generate_solution_def (d : String) (randF : Grid → Nat → Nat)
    (randP : Nat → Nat) :
    (generate d randF randP).solution = generatedBoard randF := by
  unfold generate
  simp only []

/-- Claim C1: for every difficulty and every outcome of the internal
random choices, the puzzle grid returned by `generate(difficulty)` admits
exactly one completion: `countSolutions(puzzle, 2) == 1`. -/
theorem generate_puzzle_unique_solution (d : String)
    (randF : Grid → Nat → Nat) (randP : Nat → Nat) :
    countSolutions (generate d randF randP).puzzle (some 2) = 1 := by
  have hbase : countSolutions (generatedBoard randF) none = 1 :=
    countSolutions_complete (generatedBoard_spec randF).1 none
  rw [generate_puzzle_def, ← countSolutions_none_eq_some_two]
  exact removeLoop_unique (shuffle rowMajor randP) (generatedBoard randF) 0 hbase

/-- Claim C3: for every difficulty and every outcome of the internal
random choices, every non-zero cell of the generated puzzle equals the
same cell of the generated solution, and the solution is a complete legal
grid: every row, column and 3×3 box is a permutation of the digits 1–9. -/
theorem generate_puzzle_subset_and_solution_legal (d : String)
    (randF : Grid → Nat → Nat) (randP : Nat → Nat) :
    (∀ r c : Nat,
      (generate d randF randP).puzzle r c = 0 ∨
        (generate d randF randP).puzzle r c = (generate d randF randP).solution r c) ∧
    ∀ i : Fin 9,
      List.Perm (rowVals (generate d randF randP).solution i.val) digits ∧
        List.Perm (colVals (generate d randF randP).solution i.val) digits ∧
        List.Perm (boxVals (generate d randF randP).solution i.val) digits := by
  obtain ⟨hcpl, hvp, hrange⟩ := generatedBoard_spec randF
  simp only [generate_puzzle_def, generate_solution_def]
  constructor
  · exact removeLoop_subset (shuffle rowMajor randP) (generatedBoard randF) 0
      fun r c => Or.inr rfl
  · intro i
    exact ⟨rowVals_perm hcpl hvp hrange i.isLt, colVals_perm hcpl hvp hrange i.isLt,
      boxVals_perm hcpl hvp hrange i.isLt⟩

/-- Claim C9: for every difficulty argument and every outcome of the
random choices, the number of zero cells of the generated puzzle is at
most the difficulty table's removal count (beginner 30, easy 38, medium
46, hard 52, expert 56), and any other difficulty name uses easy's count
38. -/
theorem generate_zero_cells_le_table (d : String)
    (randF : Grid → Nat → Nat) (randP : Nat → Nat) :
    numEmpty (generate d randF randP).puzzle ≤ (REMOVALS d).getD 38 ∧
    REMOVALS "beginner" = some 30 ∧ REMOVALS "easy" = some 38 ∧
    REMOVALS "medium" = some 46 ∧ REMOVALS "hard" = some 52 ∧
    REMOVALS "expert" = some 56 ∧
    ∀ d' : String, d' = "beginner" ∨ d' = "easy" ∨ d' = "medium" ∨
      d' = "hard" ∨ d' = "expert" ∨ (REMOVALS d').getD 38 = 38 := by
  refine ⟨?_, rfl, rfl, rfl, rfl, rfl, ?_⟩
  · have h0 : numEmpty (generatedBoard randF) = 0 :=
      numEmpty_complete (generatedBoard_spec randF).1
    rw [generate_puzzle_def]
    apply removeLoop_zeros
    · intro rc hrc
      exact mem_shuffle.1 hrc
    · omega
    · omega
  · intro d'
    unfold REMOVALS
    split_ifs with h1 h2 h3 h4 h5 <;> tauto

/-! ### The move advisor: generic scan lemmas -/

theorem findSome?_eq_of_find? {α β : Type} {p : α → Bool} {f : α → Option β}
    (hiff : ∀ x, (f x).isSome = p x) :
    ∀ {l : List α} {a : α}, l.find? p = some a → l.findSome? f = f a := by
  intro l
  induction l with
  | nil => intro a h; simp at h
  | cons x t ih =>
    intro a h
    rw [List.find?_cons] at h
    rw [List.findSome?_cons]
    cases hp : p x with
    | true =>
      rw [hp] at h
      simp only [Option.some.injEq] at h
      subst h
      have hx := hiff x
      rw [hp] at hx
      obtain ⟨b, hb⟩ := Option.isSome_iff_exists.1 hx
      rw [hb]
    | false =>
      rw [hp] at h
      have hx := hiff x
      rw [hp] at hx
      have hfx : f x = none := by
        cases hfx : f x with
        | some b => rw [hfx] at hx; simp at hx
        | none => rfl
      rw [hfx]
      exact ih h

theorem findSome?_flatMap_pairs {α β γ : Type} {l : List α} {m : List β}
    {F : α → β → Option γ} :
    ((l.flatMap fun a => m.map fun b => (a, b)).findSome?
        fun p : α × β => F p.1 p.2) =
      l.findSome? fun a => m.findSome? fun b => F a b := by
  induction l with
  | nil => rfl
  | cons a t ih =>
    rw [List.flatMap_cons, List.findSome?_append, List.findSome?_cons]
    have hhead : ((m.map fun b => (a, b)).findSome? fun p : α × β => F p.1 p.2) =
        m.findSome? fun b => F a b := by
      rw [List.findSome?_map]
      rfl
    rw [hhead]
    cases hm : m.findSome? fun b => F a b with
    | some v => simp
    | none => simp [ih]

/-! ### Characterising the three hint finders -/

theorem findNakedSingle_isSome_iff (g : Grid) (rc : Nat × Nat) :
    (Option.isSome
        (if (candidates g rc.1 rc.2).card = 1 then
          some
            { technique := "Naked Single", row := rc.1, col := rc.2,
              value := ((candidates g rc.1 rc.2).sort (· ≤ ·)).headI,
              highlight :=
                { target := (rc.1, rc.2)
                  peers := dedupCells
                    (((buildPeers rc.1 rc.2).row.filter fun p => g p.1 p.2 != 0) ++
                      ((buildPeers rc.1 rc.2).col.filter fun p => g p.1 p.2 != 0) ++
                      ((buildPeers rc.1 rc.2).box.filter fun p => g p.1 p.2 != 0))
                  unit := (buildPeers rc.1 rc.2).row ++ (buildPeers rc.1 rc.2).col ++
                    (buildPeers rc.1 rc.2).box } }
        else (none : Option Hint))) =
      ((candidates g rc.1 rc.2).card == 1) := by
  by_cases hcard : (candidates g rc.1 rc.2).card = 1 <;> simp [hcard]

theorem findNakedSingle_eq_apply {g : Grid} {r c : Nat}
    (h1 : rowMajor.find? (fun rc => (candidates g rc.1 rc.2).card == 1) =
      some (r, c)) :
    findNakedSingle g =
      if (candidates g r c).card = 1 then
        some
          { technique := "Naked Single", row := r, col := c,
            value := ((candidates g r c).sort (· ≤ ·)).headI,
            highlight :=
              { target := (r, c)
                peers := dedupCells
                  (((buildPeers r c).row.filter fun p => g p.1 p.2 != 0) ++
                    ((buildPeers r c).col.filter fun p => g p.1 p.2 != 0) ++
                    ((buildPeers r c).box.filter fun p => g p.1 p.2 != 0))
                unit := (buildPeers r c).row ++ (buildPeers r c).col ++
                  (buildPeers r c).box } }
      else none := by
  unfold findNakedSingle
  exact findSome?_eq_of_find? (findNakedSingle_isSome_iff g) h1

/-- Claim C7: when some cell has exactly one candidate, `findMove` returns
a "Naked Single" hint at the first such cell in row-major order, whose
value is that sole candidate. -/
theorem findMove_nakedSingle (g sol : Grid) (r c v : Nat)
    (h1 : rowMajor.find? (fun rc => (candidates g rc.1 rc.2).card == 1) =
      some (r, c))
    (h2 : candidates g r c = {v}) :
    (findMove g sol).map (fun h => (h.technique, h.row, h.col, h.value)) =
      some ("Naked Single", r, c, v) := by
  have hcard : (candidates g r c).card = 1 := by
    rw [h2]; exact Finset.card_singleton v
  have hfn := findNakedSingle_eq_apply h1
  rw [if_pos hcard, h2, Finset.sort_singleton] at hfn
  unfold findMove
  rw [hfn]
  rfl

theorem findNakedSingle_eq_none {g : Grid}
    (h0 : ∀ rc ∈ rowMajor, (candidates g rc.1 rc.2).card ≠ 1) :
    findNakedSingle g = none := by
  unfold findNakedSingle
  rw [List.findSome?_eq_none_iff]
  intro rc hrc
  rw [if_neg (h0 rc hrc)]

theorem findHiddenSingle_as_pairs (g : Grid) :
    findHiddenSingle g =
      hiddenScanPairs.findSome? fun p => hiddenAt g p.1 p.2 := by
  unfold findHiddenSingle hiddenScanPairs
  rw [findSome?_flatMap_pairs]

theorem hiddenAt_isSome_iff (g : Grid) (p : (String × Nat) × Nat) :
    (hiddenAt g p.1 p.2).isSome = hiddenQualifies g p.1 p.2 := by
  obtain ⟨u, n⟩ := p
  unfold hiddenAt hiddenQualifies
  cases hany : (unitCells u.1 u.2).any fun q => g q.1 q.2 == n with
  | true => simp [hany]
  | false =>
    simp only [hany, Bool.not_false, Bool.true_and, if_neg Bool.false_ne_true]
    cases hfil : (unitCells u.1 u.2).filter
        fun q => decide (n ∈ candidates g q.1 q.2) with
    | nil => simp [hfil]
    | cons x t =>
      obtain ⟨r, c⟩ := x
      cases t with
      | nil => simp [hfil]
      | cons y s => simp [hfil]

/-- Claim C8: when no cell has exactly one candidate, `findMove` scans the
27 units (rows, then columns, then boxes) with digits 1–9 ascending, and
for the first qualifying (unit, digit) pair returns a
"Hidden Single (Row|Col|Box)" hint placing that digit at the unit's unique
fitting cell. -/
theorem findMove_hiddenSingle (g sol : Grid) (t : String) (i n r c : Nat)
    (h0 : ∀ rc ∈ rowMajor, (candidates g rc.1 rc.2).card ≠ 1)
    (h1 : hiddenScanPairs.find? (fun p => hiddenQualifies g p.1 p.2) =
      some ((t, i), n))
    (h2 : (unitCells t i).filter (fun p => decide (n ∈ candidates g p.1 p.2)) =
      [(r, c)]) :
    (findMove g sol).map (fun h => (h.technique, h.row, h.col, h.value)) =
      some ("Hidden Single (" ++ capUnitType t ++ ")", r, c, n) := by
  have hq' := List.find?_some h1
  have hq : hiddenQualifies g (t, i) n = true := hq'
  have hany : ((unitCells t i).any fun q => g q.1 q.2 == n) = false := by
    unfold hiddenQualifies at hq
    cases hany : (unitCells t i).any fun q => g q.1 q.2 == n with
    | true => rw [hany] at hq; simp at hq
    | false => rfl
  have hhid : findHiddenSingle g = hiddenAt g (t, i) n := by
    rw [findHiddenSingle_as_pairs]
    exact findSome?_eq_of_find? (hiddenAt_isSome_iff g) h1
  have hval : hiddenAt g (t, i) n =
      some
        { technique := "Hidden Single (" ++ capUnitType t ++ ")", row := r,
          col := c, value := n,
          highlight :=
            { target := (r, c)
              peers := (unitCells t i).filter
                fun p => g p.1 p.2 != 0 && !(p.1 == r && p.2 == c)
              unit := unitCells t i } } := by
    unfold hiddenAt
    simp only [hany, Bool.false_eq_true, if_false, h2]
  unfold findMove
  rw [findNakedSingle_eq_none h0]
  simp only []
  rw [hhid, hval]
  rfl

/-! ### Every hint targets an empty cell with a digit 1–9 -/

/-- The invariant claimed of every returned hint. -/
def HintInvariant (g : Grid) (h : Hint) : Prop :=
  g h.row h.col = 0 ∧ h.highlight.target = (h.row, h.col) ∧
    1 ≤ h.value ∧ h.value ≤ 9

theorem naked_hint_spec {g : Grid} {h : Hint}
    (hn : findNakedSingle g = some h) : HintInvariant g h := by
  unfold findNakedSingle at hn
  obtain ⟨rc, hmem, hrc⟩ := List.exists_of_findSome?_eq_some hn
  simp only [] at hrc
  by_cases hcard : (candidates g rc.1 rc.2).card = 1
  · rw [if_pos hcard] at hrc
    obtain ⟨v, hv⟩ := Finset.card_eq_one.1 hcard
    have hvmem := mem_candidates_iff.1 (hv ▸ Finset.mem_singleton_self v)
    rw [Option.some.injEq] at hrc
    subst hrc
    refine ⟨hvmem.1, rfl, ?_, ?_⟩ <;>
      simp only [hv, Finset.sort_singleton, List.headI] <;> omega
  · rw [if_neg hcard] at hrc
    cases hrc

theorem hidden_hint_spec {g : Grid} {h : Hint}
    (hh : findHiddenSingle g = some h) : HintInvariant g h := by
  rw [findHiddenSingle_as_pairs] at hh
  obtain ⟨p, hmem, hp⟩ := List.exists_of_findSome?_eq_some hh
  obtain ⟨⟨t, i⟩, n⟩ := p
  unfold hiddenAt at hp
  simp only [] at hp
  cases hany : (unitCells t i).any fun q => g q.1 q.2 == n with
  | true => rw [hany] at hp; simp at hp
  | false =>
    rw [hany] at hp
    simp only [Bool.false_eq_true, if_false] at hp
    cases hfil : (unitCells t i).filter
        fun q => decide (n ∈ candidates g q.1 q.2) with
    | nil => rw [hfil] at hp; simp only [] at hp; cases hp
    | cons x s =>
      obtain ⟨r, c⟩ := x
      cases s with
      | nil =>
        rw [hfil] at hp
        simp only [Option.some.injEq] at hp
        subst hp
        have hrc : (r, c) ∈ (unitCells t i).filter
            fun q => decide (n ∈ candidates g q.1 q.2) := by
          rw [hfil]; exact List.mem_singleton_self _
        have hmemc := of_decide_eq_true (List.mem_filter.1 hrc).2
        have hspec := mem_candidates_iff.1 hmemc
        exact ⟨hspec.1, rfl, hspec.2.1.1, hspec.2.1.2⟩
      | cons y s' => rw [hfil] at hp; simp only [] at hp; cases hp

theorem fallback_hint_spec {g sol : Grid} {h : Hint}
    (hsol : ∀ rc ∈ rowMajor, 1 ≤ sol rc.1 rc.2 ∧ sol rc.1 rc.2 ≤ 9)
    (hf : fallback g sol = some h) : HintInvariant g h := by
  unfold fallback at hf
  obtain ⟨rc, hmem, hrc⟩ := List.exists_of_findSome?_eq_some hf
  simp only [] at hrc
  cases hz : g rc.1 rc.2 == 0 with
  | true =>
    rw [hz] at hrc
    simp only [if_true, Option.some.injEq] at hrc
    subst hrc
    exact ⟨beq_iff_eq.1 hz, rfl, (hsol rc hmem).1, (hsol rc hmem).2⟩
  | false =>
    rw [hz] at hrc
    simp only [Bool.false_eq_true, if_false] at hrc
    cases hrc

/-- Claim C10: whenever `findMove` returns a hint (for any board and any
completely filled well-formed solution grid), the hint's target cell is
empty on the board, the highlight target equals that cell, and the hint's
value is a digit 1–9 — for all three techniques including the fallback. -/
theorem findMove_hint_invariant (g sol : Grid)
    (hsol : ∀ rc ∈ rowMajor, 1 ≤ sol rc.1 rc.2 ∧ sol rc.1 rc.2 ≤ 9) :
    (findMove g sol).elim True fun h =>
      g h.row h.col = 0 ∧ h.highlight.target = (h.row, h.col) ∧
        1 ≤ h.value ∧ h.value ≤ 9 := by
  cases hm : findMove g sol with
  | none => exact trivial
  | some h =>
    show HintInvariant g h
    unfold findMove at hm
    cases hn : findNakedSingle g with
    | some h1 =>
      rw [hn] at hm
      simp only [Option.some.injEq] at hm
      subst hm
      exact naked_hint_spec hn
    | none =>
      rw [hn] at hm
      simp only [] at hm
      cases hh : findHiddenSingle g with
      | some h2 =>
        rw [hh] at hm
        simp only [Option.some.injEq] at hm
        subst hm
        exact hidden_hint_spec hh
      | none =>
        rw [hh] at hm
        simp only [] at hm
        exact fallback_hint_spec hsol hm

/-! ### Counting occurrences in `conflicts` -/

theorem count_ite_singleton (P : Prop) [Decidable P] (x y : Nat × Nat) :
    ((if P then [y] else []) : List (Nat × Nat)).count x =
      if P ∧ x = y then 1 else 0 := by
  by_cases hP : P
  · rw [if_pos hP]
    by_cases hxy : x = y
    · rw [if_pos ⟨hP, hxy⟩, hxy]
      simp
    · rw [if_neg fun h => hxy h.2]
      simp [List.count_cons, List.count_nil, hxy]
  · rw [if_neg hP, if_neg fun h => hP h.1]
    simp

theorem sum_map_ite_point (n j : Nat) (Q : Prop) [Decidable Q] :
    ((List.range n).map fun i => if i = j ∧ Q then 1 else 0).sum =
      if j < n ∧ Q then 1 else 0 := by
  by_cases hQ : Q
  · simp only [hQ, and_true]
    induction n with
    | zero => simp
    | succ n ih =>
      rw [List.range_succ, List.map_append, List.sum_append, ih]
      simp only [List.map_cons, List.map_nil, List.sum_cons, List.sum_nil]
      split_ifs <;> omega
  · simp [hQ]

theorem count_append_pair (x : Nat × Nat) (l1 l2 : List (Nat × Nat)) :
    (l1 ++ l2).count x = l1.count x + l2.count x :=
  List.count_append x l1 l2

/-- Exact multiplicity of a cell in `Engine.conflicts`: a conflicting cell
appears once, except cells that share the box together with the row or the
column, which the row/column loop and the box loop each push once. -/
theorem conflicts_count (g : Grid) {r c v r' c' : Nat} (hr : r < 9)
    (hc : c < 9) (hr' : r' < 9) (hc' : c' < 9) :
    (conflicts g r c v).count (r', c') =
      if g r' c' = v ∧ ¬(r' = r ∧ c' = c) ∧ sameUnit r' c' r c then
        if (r' / 3 = r / 3 ∧ c' / 3 = c / 3) ∧ (r' = r ∨ c' = c) then 2 else 1
      else 0 := by
  unfold conflicts
  rw [count_append_pair]
  have hrowcol :
      (((List.range 9).flatMap fun i =>
            (if i ≠ c ∧ g r i = v then [(r, i)] else []) ++
              if i ≠ r ∧ g i c = v then [(i, c)] else []).count (r', c')) =
        ((if c' < 9 ∧ r' = r ∧ c' ≠ c ∧ g r' c' = v then 1 else 0) +
          if r' < 9 ∧ c' = c ∧ r' ≠ r ∧ g r' c' = v then 1 else 0) := by
    rw [List.count_flatMap]
    have hmap : ∀ i ∈ List.range 9,
        (Function.comp (List.count (r', c'))
            (fun i =>
              (if i ≠ c ∧ g r i = v then [(r, i)] else []) ++
                if i ≠ r ∧ g i c = v then [(i, c)] else []) i) =
          ((if i = c' ∧ (r' = r ∧ c' ≠ c ∧ g r' c' = v) then 1 else 0) +
            if i = r' ∧ (c' = c ∧ r' ≠ r ∧ g r' c' = v) then 1 else 0) := by
      intro i _
      show ((if i ≠ c ∧ g r i = v then [(r, i)] else []) ++
          if i ≠ r ∧ g i c = v then [(i, c)] else []).count (r', c') = _
      rw [count_append_pair, count_ite_singleton, count_ite_singleton]
      congr 1
      · apply if_congr _ rfl rfl
        constructor
        · rintro ⟨⟨hic, hgv⟩, hpair⟩
          rw [Prod.mk.injEq] at hpair
          obtain ⟨h1, h2⟩ := hpair
          refine ⟨h2.symm, h1, fun hcc => hic (h2.symm.trans hcc), ?_⟩
          rw [h1, h2]
          exact hgv
        · rintro ⟨hi, h1, hcc, hgv⟩
          refine ⟨⟨fun hic => hcc (hi.symm.trans hic), ?_⟩, ?_⟩
          · rw [hi, ← h1]
            exact hgv
          · rw [Prod.mk.injEq]
            exact ⟨h1, hi.symm⟩
      · apply if_congr _ rfl rfl
        constructor
        · rintro ⟨⟨hir, hgv⟩, hpair⟩
          rw [Prod.mk.injEq] at hpair
          obtain ⟨h1, h2⟩ := hpair
          refine ⟨h1.symm, h2, fun hrr => hir (h1.symm.trans hrr), ?_⟩
          rw [h1, h2]
          exact hgv
        · rintro ⟨hi, h2, hrr, hgv⟩
          refine ⟨⟨fun hir => hrr (hi.symm.trans hir), ?_⟩, ?_⟩
          · rw [hi, ← h2]
            exact hgv
          · rw [Prod.mk.injEq]
            exact ⟨hi.symm, h2⟩
    rw [List.map_congr_left hmap, List.sum_map_add, sum_map_ite_point,
      sum_map_ite_point]
  rw [hrowcol]
  have hbox :
      (((List.range 3).flatMap fun dr =>
            (List.range 3).flatMap fun dc =>
              if ¬(3 * (r / 3) + dr = r ∧ 3 * (c / 3) + dc = c) ∧
                  g (3 * (r / 3) + dr) (3 * (c / 3) + dc) = v then
                [(3 * (r / 3) + dr, 3 * (c / 3) + dc)]
              else []).count (r', c')) =
        if r' - 3 * (r / 3) < 3 ∧ 3 * (r / 3) ≤ r' ∧ c' - 3 * (c / 3) < 3 ∧
            3 * (c / 3) ≤ c' ∧ ¬(r' = r ∧ c' = c) ∧ g r' c' = v then 1
        else 0 := by
    rw [List.count_flatMap]
    have hmap : ∀ dr ∈ List.range 3,
        (Function.comp (List.count (r', c'))
            (fun dr =>
              (List.range 3).flatMap fun dc =>
                if ¬(3 * (r / 3) + dr = r ∧ 3 * (c / 3) + dc = c) ∧
                    g (3 * (r / 3) + dr) (3 * (c / 3) + dc) = v then
                  [(3 * (r / 3) + dr, 3 * (c / 3) + dc)]
                else []) dr) =
          if dr = r' - 3 * (r / 3) ∧ (3 * (r / 3) ≤ r' ∧
              c' - 3 * (c / 3) < 3 ∧ 3 * (c / 3) ≤ c' ∧
              ¬(r' = r ∧ c' = c) ∧ g r' c' = v) then 1
          else 0 := by
      intro dr hdr
      rw [List.mem_range] at hdr
      show (((List.range 3).flatMap fun dc =>
          if ¬(3 * (r / 3) + dr = r ∧ 3 * (c / 3) + dc = c) ∧
              g (3 * (r / 3) + dr) (3 * (c / 3) + dc) = v then
            [(3 * (r / 3) + dr, 3 * (c / 3) + dc)]
          else []).count (r', c')) = _
      rw [List.count_flatMap]
      have hmap2 : ∀ dc ∈ List.range 3,
          (Function.comp (List.count (r', c'))
              (fun dc =>
                if ¬(3 * (r / 3) + dr = r ∧ 3 * (c / 3) + dc = c) ∧
                    g (3 * (r / 3) + dr) (3 * (c / 3) + dc) = v then
                  [(3 * (r / 3) + dr, 3 * (c / 3) + dc)]
                else []) dc) =
            if dc = c' - 3 * (c / 3) ∧ (3 * (c / 3) ≤ c' ∧
                3 * (r / 3) + dr = r' ∧ ¬(r' = r ∧ c' = c) ∧
                g r' c' = v) then 1
            else 0 := by
        intro dc hdc
        rw [List.mem_range] at hdc
        show ((if ¬(3 * (r / 3) + dr = r ∧ 3 * (c / 3) + dc = c) ∧
            g (3 * (r / 3) + dr) (3 * (c / 3) + dc) = v then
              [(3 * (r / 3) + dr, 3 * (c / 3) + dc)]
            else []).count (r', c')) = _
        rw [count_ite_singleton]
        apply if_congr _ rfl rfl
        constructor
        · rintro ⟨⟨hnz, hgv⟩, hpair⟩
          rw [Prod.mk.injEq] at hpair
          obtain ⟨h1, h2⟩ := hpair
          refine ⟨by omega, by omega, by omega, ?_, ?_⟩
          · exact fun hcon => hnz ⟨h1.symm.trans hcon.1, h2.symm.trans hcon.2⟩
          · rw [h1, h2]; exact hgv
        · rintro ⟨hdc', hcle, hdrr, hnrc, hgv⟩
          have h1 : 3 * (r / 3) + dr = r' := hdrr
          have h2 : 3 * (c / 3) + dc = c' := by omega
          refine ⟨⟨?_, ?_⟩, ?_⟩
          · rw [h1, h2]; exact fun hcon => hnrc ⟨hcon.1, hcon.2⟩
          · rw [h1, h2]; exact hgv
          · rw [h1, h2]
      rw [List.map_congr_left hmap2, sum_map_ite_point]
      apply if_congr _ rfl rfl
      constructor
      · rintro ⟨hlt, hcle, hdrr, hnrc, hgv⟩
        exact ⟨by omega, by omega, by omega, hcle, hnrc, hgv⟩
      · rintro ⟨hdr', hrle, hclt, hcle, hnrc, hgv⟩
        exact ⟨by omega, hcle, by omega, hnrc, hgv⟩
    rw [List.map_congr_left hmap, sum_map_ite_point]
  rw [hbox]
  unfold sameUnit
  by_cases hgv : g r' c' = v
  · simp only [hgv, and_true, true_and]
    have hpairne : ∀ P : Prop, (¬(r' = r ∧ c' = c) ∧ P) ↔ (P ∧ ¬(r' = r ∧ c' = c)) :=
      fun P => by tauto
    split_ifs <;> omega
  · simp only [hgv, and_false, false_and, and_false, if_false]

theorem conflicts_mem (g : Grid) {r c v r' c' : Nat} (hr : r < 9) (hc : c < 9)
    (hr' : r' < 9) (hc' : c' < 9) :
    (r', c') ∈ conflicts g r c v ↔
      g r' c' = v ∧ ¬(r' = r ∧ c' = c) ∧ sameUnit r' c' r c := by
  rw [← List.count_pos_iff, conflicts_count g hr hc hr' hc']
  split_ifs with h1 h2
  · exact ⟨fun _ => h1, fun _ => by omega⟩
  · exact ⟨fun _ => h1, fun _ => by omega⟩
  · exact iff_of_false (by omega) h1

/-- Claim C5 (amended): `conflicts(grid, r, c, v)` contains a cell
`(r', c')` iff it differs from `(r, c)`, shares a row, column, or box with
`(r, c)`, and holds `v`; each such cell is listed once, except a cell that
shares the box together with the row or the column, which is listed twice
(once by the row/column loop and once by the box loop). -/
theorem conflicts_characterization (g : Grid) (r c v r' c' : Nat)
    (hr : r < 9) (hc : c < 9) (hr' : r' < 9) (hc' : c' < 9) :
    ((r', c') ∈ conflicts g r c v ↔
      (r', c') ≠ (r, c) ∧ sameUnit r' c' r c ∧ g r' c' = v) ∧
    (conflicts g r c v).count (r', c') =
      (if g r' c' = v ∧ ¬(r' = r ∧ c' = c) ∧ sameUnit r' c' r c then
        if (r' / 3 = r / 3 ∧ c' / 3 = c / 3) ∧ (r' = r ∨ c' = c) then 2 else 1
      else 0) := by
  have hne : ((r', c') ≠ (r, c)) ↔ ¬(r' = r ∧ c' = c) := by
    rw [Ne, Prod.mk.injEq]
  refine ⟨?_, conflicts_count g hr hc hr' hc'⟩
  rw [conflicts_mem g hr hc hr' hc', hne]
  tauto

/-- Claim C5 counterexample: with a 5 at `(0, 1)`, the cell `(0, 1)`
shares both the row and the box with `(0, 0)` and is pushed twice by
`conflicts` — the claim's "each such cell appears exactly once" fails. -/
theorem conflicts_duplicate_counterexample :
    conflicts (ofRows [[0, 5]]) 0 0 5 = [(0, 1), (0, 1)] ∧
    ¬(conflicts (ofRows [[0, 5]]) 0 0 5).Nodup ∧
    (conflicts (ofRows [[0, 5]]) 0 0 5).count (0, 1) = 2 :=
  ⟨by decide, by decide, by decide⟩

/-! ### `candidates` equals {1..9} minus the peer values -/

theorem mem_peerValues_iff {g : Grid} {r c v : Nat} :
    v ∈ peerValues g r c ↔
      (∃ i < 9, g r i = v) ∨ (∃ i < 9, g i c = v) ∨
        ∃ dr < 3, ∃ dc < 3, g (3 * (r / 3) + dr) (3 * (c / 3) + dc) = v := by
  simp only [peerValues, Finset.mem_union, List.mem_toFinset, List.mem_map,
    List.mem_flatMap, List.mem_range]
  constructor
  · rintro ((⟨i, hi, rfl⟩ | ⟨i, hi, rfl⟩) | ⟨dr, hdr, dc, hdc, rfl⟩)
    · exact Or.inl ⟨i, hi, rfl⟩
    · exact Or.inr (Or.inl ⟨i, hi, rfl⟩)
    · exact Or.inr (Or.inr ⟨dr, hdr, dc, hdc, rfl⟩)
  · rintro (⟨i, hi, hv⟩ | ⟨i, hi, hv⟩ | ⟨dr, hdr, dc, hdc, hv⟩)
    · exact Or.inl (Or.inl ⟨i, hi, hv⟩)
    · exact Or.inl (Or.inr ⟨i, hi, hv⟩)
    · exact Or.inr ⟨dr, hdr, dc, hdc, hv⟩

/-- Claim C4: on a filled cell `candidates` is empty; on an empty cell it
is exactly {1..9} minus the values of the cell's row, column and box, so
it is disjoint from the peer values and together with them covers
{1..9}. -/
theorem candidates_spec (g : Grid) (r c : Nat) :
    (g r c ≠ 0 → candidates g r c = ∅) ∧
    (g r c = 0 → candidates g r c = Finset.Icc 1 9 \ peerValues g r c) ∧
    candidates g r c ∩ peerValues g r c = ∅ ∧
    (g r c = 0 → Finset.Icc 1 9 ⊆ candidates g r c ∪ peerValues g r c) := by
  have hfilled : g r c ≠ 0 → candidates g r c = ∅ := by
    intro h
    unfold candidates
    rw [if_pos h]
  have hempty : g r c = 0 → candidates g r c = Finset.Icc 1 9 \ peerValues g r c := by
    intro h
    ext v
    rw [mem_candidates_iff, Finset.mem_sdiff, Finset.mem_Icc, mem_peerValues_iff]
    constructor
    · rintro ⟨_, hb, hrow, hbox⟩
      refine ⟨hb, ?_⟩
      rintro (⟨i, hi, hv⟩ | ⟨i, hi, hv⟩ | ⟨dr, hdr, dc, hdc, hv⟩)
      · exact (hrow i hi).1 hv
      · exact (hrow i hi).2 hv
      · exact hbox dr hdr dc hdc hv
    · rintro ⟨hb, hnp⟩
      refine ⟨h, hb, fun i hi => ⟨?_, ?_⟩, fun dr hdr dc hdc => ?_⟩
      · exact fun hv => hnp (Or.inl ⟨i, hi, hv⟩)
      · exact fun hv => hnp (Or.inr (Or.inl ⟨i, hi, hv⟩))
      · exact fun hv => hnp (Or.inr (Or.inr ⟨dr, hdr, dc, hdc, hv⟩))
  refine ⟨hfilled, hempty, ?_, ?_⟩
  · by_cases h : g r c = 0
    · rw [hempty h]
      exact Finset.sdiff_inter_self _ _
    · rw [hfilled h]
      exact Finset.empty_inter _
  · intro h
    rw [hempty h]
    intro v hv
    rw [Finset.mem_union, Finset.mem_sdiff]
    by_cases hp : v ∈ peerValues g r c
    · exact Or.inr hp
    · exact Or.inl ⟨hv, hp⟩

/-! ### Counting completions: `countSolutions` is `min(N, max)` on valid
grids -/

theorem digits_nodup : digits.Nodup := by decide

theorem mem_completionSet {g : Grid} {f : Fin 9 → Fin 9 → Fin 9} :
    f ∈ completionSet g ↔ IsCompletion g (gridOfFn f) := by
  simp only [completionSet, Finset.mem_filter, Finset.mem_univ, true_and]

attribute [irreducible] completionSet

theorem gridOfFn_lt {f : Fin 9 → Fin 9 → Fin 9} {r c : Nat} (hr : r < 9)
    (hc : c < 9) : 1 ≤ gridOfFn f r c ∧ gridOfFn f r c ≤ 9 := by
  unfold gridOfFn
  rw [dif_pos hr, dif_pos hc]
  have := (f ⟨r, hr⟩ ⟨c, hc⟩).isLt
  omega

theorem gridOfFn_val (f : Fin 9 → Fin 9 → Fin 9) (a b : Fin 9) :
    gridOfFn f a.val b.val = (f a b).val + 1 := by
  unfold gridOfFn
  rw [dif_pos a.isLt, dif_pos b.isLt]

theorem numCompletions_of_complete {g : Grid} (hcpl : Complete g)
    (hvp : ValidPartial g)
    (hrange : ∀ r < 9, ∀ c < 9, 1 ≤ g r c ∧ g r c ≤ 9) :
    numCompletions g = 1 := by
  unfold numCompletions
  have hset : completionSet g = {fnOfGrid g} := by
    ext f
    rw [mem_completionSet, Finset.mem_singleton]
    constructor
    · rintro ⟨hext, _, _, _⟩
      funext a b
      have hab := hext a.val a.isLt b.val b.isLt (hcpl a.val a.isLt b.val b.isLt)
      rw [gridOfFn_val] at hab
      apply Fin.ext
      show (f a b).val = (g a.val b.val - 1) % 9
      have := (f a b).isLt
      omega
    · rintro rfl
      have hagree : ∀ a, a < 9 → ∀ b, b < 9 →
          gridOfFn (fnOfGrid g) a b = g a b := by
        intro a ha b hb
        unfold gridOfFn fnOfGrid
        rw [dif_pos ha, dif_pos hb]
        dsimp only
        have := hrange a ha b hb
        omega
      refine ⟨fun a ha b hb _ => hagree a ha b hb, ?_, ?_, ?_⟩
      · intro a ha b hb
        rw [hagree a ha b hb]
        exact hcpl a ha b hb
      · intro a ha b hb a' ha' b' hb' hne hsu
        rw [hagree a ha b hb, hagree a' ha' b' hb']
        exact hvp a ha b hb a' ha' b' hb' hne hsu
      · intro a ha b hb
        rw [hagree a ha b hb]
        exact hrange a ha b hb
  rw [hset, Finset.card_singleton]

theorem numCompletions_partition {g : Grid} {r c : Nat} (hr : r < 9)
    (hc : c < 9) (hrc : g r c = 0) :
    numCompletions g =
      (digits.map fun n => numCompletions (setCell g r c n)).sum := by
  unfold numCompletions
  have hset : completionSet g =
      digits.toFinset.biUnion fun n => completionSet (setCell g r c n) := by
    ext f
    simp only [Finset.mem_biUnion, List.mem_toFinset, mem_completionSet]
    constructor
    · rintro ⟨hext, hcpl, hvp, hrange⟩
      refine ⟨gridOfFn f r c, mem_digits.2 (gridOfFn_lt hr hc), ?_, hcpl,
        hvp, hrange⟩
      intro a ha b hb hz
      by_cases hab : a = r ∧ b = c
      · obtain ⟨rfl, rfl⟩ := hab
        rw [setCell_read]
      · rw [setCell_read_ne _ _ _ _ _ _ hab] at hz
        rw [setCell_read_ne _ _ _ _ _ _ hab]
        exact hext a ha b hb hz
    · rintro ⟨n, hn, hext, hcpl, hvp, hrange⟩
      refine ⟨?_, hcpl, hvp, hrange⟩
      intro a ha b hb hz
      have hab : ¬(a = r ∧ b = c) := by
        rintro ⟨rfl, rfl⟩
        exact hz hrc
      have := hext a ha b hb (by rw [setCell_read_ne _ _ _ _ _ _ hab]; exact hz)
      rwa [setCell_read_ne _ _ _ _ _ _ hab] at this
  rw [hset, Finset.card_biUnion, List.sum_toFinset _ digits_nodup]
  intro x hx y hy hxy
  rw [List.mem_toFinset] at hx hy
  rw [Finset.disjoint_left]
  intro f hfx hfy
  rw [mem_completionSet] at hfx hfy
  have hx1 : 1 ≤ x := (mem_digits.1 hx).1
  have hy1 : 1 ≤ y := (mem_digits.1 hy).1
  have hvx : gridOfFn f r c = x := by
    have := hfx.1 r hr c hc (by rw [setCell_read]; omega)
    rwa [setCell_read] at this
  have hvy : gridOfFn f r c = y := by
    have := hfy.1 r hr c hc (by rw [setCell_read]; omega)
    rwa [setCell_read] at this
  exact hxy (hvx.symm.trans hvy)

theorem numCompletions_invalid {g : Grid} {r c n : Nat} (hr : r < 9)
    (hc : c < 9) (hrc : g r c = 0) (hn : 1 ≤ n)
    (hval : isValid g r c n = false) :
    numCompletions (setCell g r c n) = 0 := by
  unfold numCompletions
  rw [Finset.card_eq_zero, Finset.eq_empty_iff_forall_not_mem]
  intro f hf
  rw [mem_completionSet] at hf
  obtain ⟨hext, hcpl, hvp, hrange⟩ := hf
  have hvrc : gridOfFn f r c = n := by
    have := hext r hr c hc (by rw [setCell_read]; omega)
    rwa [setCell_read] at this
  have hval' : ¬(isValid g r c n = true) := by simp [hval]
  rw [isValid_iff] at hval'
  rcases not_and_or.1 hval' with h | h
  · push_neg at h
    obtain ⟨i, hi, hcase⟩ := h
    by_cases hrowcase : g r i = n
    · have hrow := hrowcase
      have hic : i ≠ c := by
        rintro rfl
        rw [hrc] at hrow
        omega
      have hpair : ¬(r = r ∧ i = c) := fun hcon => hic hcon.2
      have hpeer : gridOfFn f r i = n := by
        have := hext r hr i hi
          (by rw [setCell_read_ne _ _ _ _ _ _ hpair, hrow]; omega)
        rwa [setCell_read_ne _ _ _ _ _ _ hpair, hrow] at this
      have := hvp r hr c hc r hr i hi (by simp [Ne, Prod.mk.injEq]; omega)
        (Or.inl rfl) (by rw [hvrc]; omega)
      rw [hvrc, hpeer] at this
      exact this rfl
    · have hcol : g i c = n := hcase hrowcase
      have hir : i ≠ r := by
        rintro rfl
        rw [hrc] at hcol
        omega
      have hpair : ¬(i = r ∧ c = c) := fun hcon => hir hcon.1
      have hpeer : gridOfFn f i c = n := by
        have := hext i hi c hc
          (by rw [setCell_read_ne _ _ _ _ _ _ hpair, hcol]; omega)
        rwa [setCell_read_ne _ _ _ _ _ _ hpair, hcol] at this
      have := hvp r hr c hc i hi c hc (by simp [Ne, Prod.mk.injEq]; omega)
        (Or.inr (Or.inl rfl)) (by rw [hvrc]; omega)
      rw [hvrc, hpeer] at this
      exact this rfl
  · push_neg at h
    obtain ⟨dr, hdr, dc, hdc, hbox⟩ := h
    have hpa : 3 * (r / 3) + dr < 9 := by omega
    have hpb : 3 * (c / 3) + dc < 9 := by omega
    have hpairne : ¬(3 * (r / 3) + dr = r ∧ 3 * (c / 3) + dc = c) := by
      rintro ⟨h1, h2⟩
      rw [h1, h2, hrc] at hbox
      omega
    have hpeer : gridOfFn f (3 * (r / 3) + dr) (3 * (c / 3) + dc) = n := by
      have := hext _ hpa _ hpb
        (by rw [setCell_read_ne _ _ _ _ _ _ hpairne, hbox]; omega)
      rwa [setCell_read_ne _ _ _ _ _ _ hpairne, hbox] at this
    have hsu : sameUnit r c (3 * (r / 3) + dr) (3 * (c / 3) + dc) :=
      Or.inr (Or.inr ⟨by omega, by omega⟩)
    have := hvp r hr c hc _ hpa _ hpb
      (by simp only [Ne, Prod.mk.injEq]
          rintro ⟨h1, h2⟩
          exact hpairne ⟨h1.symm, h2.symm⟩)
      hsu (by rw [hvrc]; omega)
    rw [hvrc, hpeer] at this
    exact this rfl

theorem wellFormed_setCell {g : Grid} {r c n : Nat} (hwf : WellFormed g)
    (hn : n ≤ 9) : WellFormed (setCell g r c n) := by
  intro a ha b hb
  by_cases hab : a = r ∧ b = c
  · obtain ⟨rfl, rfl⟩ := hab
    rw [setCell_read]
    exact hn
  · rw [setCell_read_ne _ _ _ _ _ _ hab]
    exact hwf a ha b hb

theorem csDigits_eq {next : Grid → Nat → Nat} {g : Grid} {r c max : Nat} :
    ∀ (ns : List Nat) (count : Nat), count ≤ max →
      (∀ n ∈ ns, isValid g r c n = true → ∀ cnt, cnt ≤ max →
        next (setCell g r c n) cnt =
          min (cnt + numCompletions (setCell g r c n)) max) →
      (∀ n ∈ ns, isValid g r c n = false →
        numCompletions (setCell g r c n) = 0) →
      csDigits next g r c max ns count =
        min (count + (ns.map fun n => numCompletions (setCell g r c n)).sum)
          max := by
  intro ns
  induction ns with
  | nil =>
    intro count hcount _ _
    show count = min (count + ([] : List Nat).sum) max
    simp only [List.sum_nil]
    omega
  | cons n rest ih =>
    intro count hcount hnext hzero
    have hstep : csDigits next g r c max (n :: rest) count =
        if isValid g r c n then
          (if max ≤ next (setCell g r c n) count then next (setCell g r c n) count
            else csDigits next g r c max rest (next (setCell g r c n) count))
        else csDigits next g r c max rest count := rfl
    rw [hstep]
    by_cases hv : isValid g r c n
    · rw [if_pos hv]
      have hval := hnext n (List.mem_cons_self n rest) hv count hcount
      rw [hval]
      by_cases hmax : max ≤ min (count + numCompletions (setCell g r c n)) max
      · rw [if_pos hmax]
        simp only [List.map_cons, List.sum_cons]
        omega
      · rw [if_neg hmax]
        have heq : min (count + numCompletions (setCell g r c n)) max =
            count + numCompletions (setCell g r c n) := by omega
        rw [heq]
        rw [ih (count + numCompletions (setCell g r c n)) (by omega)
          (fun m hm => hnext m (List.mem_cons_of_mem n hm))
          (fun m hm => hzero m (List.mem_cons_of_mem n hm))]
        simp only [List.map_cons, List.sum_cons]
        omega
    · rw [if_neg hv]
      rw [ih count hcount (fun m hm => hnext m (List.mem_cons_of_mem n hm))
        (fun m hm => hzero m (List.mem_cons_of_mem n hm))]
      have hz := hzero n (List.mem_cons_self n rest) (by
        cases hvv : isValid g r c n with
        | true => exact absurd hvv hv
        | false => rfl)
      simp only [List.map_cons, List.sum_cons, hz]
      omega

theorem solveCount_eq {max : Nat} :
    ∀ (fuel : Nat) (g : Grid) (count : Nat), WellFormed g → ValidPartial g →
      numEmpty g ≤ fuel → count ≤ max →
      solveCount max fuel g count = min (count + numCompletions g) max := by
  intro fuel
  induction fuel with
  | zero =>
    intro g count hwf hvp hfuel hcount
    by_cases hm : max ≤ count
    · rw [solveCount_of_le hm]
      omega
    · cases hfe : findEmpty g with
      | none =>
        have hcpl := findEmpty_eq_none_iff.1 hfe
        have hN : numCompletions g = 1 :=
          numCompletions_of_complete hcpl hvp fun a ha b hb =>
            ⟨by have := hcpl a ha b hb; omega, hwf a ha b hb⟩
        rw [solveCount_of_none hm hfe, hN]
        omega
      | some rc => exact absurd (numEmpty_pos hfe) (by omega)
  | succ fuel ih =>
    intro g count hwf hvp hfuel hcount
    by_cases hm : max ≤ count
    · rw [solveCount_of_le hm]
      omega
    · cases hfe : findEmpty g with
      | none =>
        have hcpl := findEmpty_eq_none_iff.1 hfe
        have hN : numCompletions g = 1 :=
          numCompletions_of_complete hcpl hvp fun a ha b hb =>
            ⟨by have := hcpl a ha b hb; omega, hwf a ha b hb⟩
        rw [solveCount_of_none hm hfe, hN]
        omega
      | some rc =>
        obtain ⟨r, c⟩ := rc
        obtain ⟨hrc, hr, hc⟩ := findEmpty_eq_some hfe
        rw [solveCount_succ_of_some hm hfe,
          csDigits_eq digits count hcount ?hnext ?hzero]
        case hnext =>
          intro n hn hv cnt hcnt
          have hn19 := mem_digits.1 hn
          apply ih
          · exact wellFormed_setCell hwf hn19.2
          · exact validPartial_setCell hr hc hrc hv hvp
          · have := numEmpty_setCell hrc hr hc (show n ≠ 0 by omega)
            omega
          · exact hcnt
        case hzero =>
          intro n hn hv
          exact numCompletions_invalid hr hc hrc (mem_digits.1 hn).1 hv
        rw [← numCompletions_partition hr hc hrc]

/-- Claim C6 (amended): on a well-formed grid whose filled cells contain
no conflicting duplicates, `countSolutions(g, max)` returns
`min(N, max)` where `N` is the number of distinct full valid completions,
it never returns more than `max`, and an omitted `max` behaves as 2. -/
theorem countSolutions_counts_completions (g : Grid) (m : Nat)
    (hwf : WellFormed g) (hvp : ValidPartial g) (hm : 1 ≤ m) :
    countSolutions g (some m) = min (numCompletions g) m ∧
    countSolutions g (some m) ≤ m ∧
    countSolutions g none = min (numCompletions g) 2 := by
  have hsm : maxDefault (some m) = m := by
    cases m with
    | zero => omega
    | succ k => rfl
  have h1 : countSolutions g (some m) = min (numCompletions g) m := by
    rw [countSolutions_eq_solveCount, hsm,
      solveCount_eq 81 g 0 hwf hvp (numEmpty_le_81 g) (by omega)]
    omega
  refine ⟨h1, by omega, ?_⟩
  rw [countSolutions_eq_solveCount,
    show maxDefault none = 2 from rfl,
    solveCount_eq 81 g 0 hwf hvp (numEmpty_le_81 g) (by omega)]
  omega

/-- The all-ones board: complete, well-formed, but invalid. -/
def allOnes : Grid := fun _ _ => 1

theorem numCompletions_allOnes : numCompletions allOnes = 0 := by
  unfold numCompletions
  rw [Finset.card_eq_zero, Finset.eq_empty_iff_forall_not_mem]
  intro f hf
  rw [mem_completionSet] at hf
  obtain ⟨hext, _, hvp, _⟩ := hf
  have h00 : gridOfFn f 0 0 = 1 := hext 0 (by omega) 0 (by omega) one_ne_zero
  have h01 : gridOfFn f 0 1 = 1 := hext 0 (by omega) 1 (by omega) one_ne_zero
  have := hvp 0 (by omega) 0 (by omega) 0 (by omega) 1 (by omega)
    (by decide) (Or.inl rfl) (by rw [h00]; omega)
  rw [h00, h01] at this
  exact this rfl

/-- Claim C6 counterexample: on the well-formed all-ones grid (complete
but invalid), `countSolutions` reports one solution although the grid has
no valid completion at all, so `countSolutions(g, max) = min(N, max)`
fails as stated for arbitrary well-formed grids. -/
theorem countSolutions_min_counterexample :
    countSolutions allOnes (some 2) = 1 ∧ numCompletions allOnes = 0 ∧
    countSolutions allOnes (some 2) ≠ min (numCompletions allOnes) 2 := by
  refine ⟨by decide, numCompletions_allOnes, ?_⟩
  rw [numCompletions_allOnes]
  decide

/-! ### The missing `Engine.boxOrigin` export, and concrete witnesses -/

/-- Claim C2 (code-bug evidence): `hints.js` loads `Engine.boxOrigin` as
one of the shared utilities it needs, but the public-API object returned
by `engine.js` does not export a `boxOrigin` member, so `findMove` calls
`undefined` (a TypeError) whenever the Naked-Single or Fallback path
reaches `buildPeers`/`box`. -/
theorem engine_missing_boxOrigin :
    "boxOrigin" ∈ hintsEngineMembersUsed ∧ "boxOrigin" ∉ enginePublicAPI ∧
    "candidates" ∈ hintsEngineMembersUsed ∧ "candidates" ∈ enginePublicAPI := by
  decide

/-- The specification's concrete Naked-Single scenario: row 0 holds
1–8 and an empty cell. -/
def nakedBoard : Grid := ofRows [[1, 2, 3, 4, 5, 6, 7, 8, 0]]

theorem findMove_nakedSingle_witness :
    rowMajor.find? (fun rc => (candidates nakedBoard rc.1 rc.2).card == 1) =
        some (0, 8) ∧
    candidates nakedBoard 0 8 = {9} ∧
    (findMove nakedBoard zeroGrid).map
        (fun h => (h.technique, h.row, h.col, h.value)) =
      some ("Naked Single", 0, 8, 9) :=
  ⟨by decide, by decide,
    findMove_nakedSingle nakedBoard zeroGrid 0 8 9 (by decide) (by decide)⟩

/-- A board with a Hidden Single for digit 1 in row 0 (at `(0, 8)`) and no
Naked Single anywhere: the only filled cells are four 1s. -/
def hiddenBoard : Grid :=
  ofRows
    [[],
     [0, 0, 0, 0, 1],
     [1],
     [0, 0, 0, 0, 0, 0, 1],
     [0, 0, 0, 0, 0, 0, 0, 1]]

theorem findMove_hiddenSingle_witness :
    (∀ rc ∈ rowMajor, (candidates hiddenBoard rc.1 rc.2).card ≠ 1) ∧
    hiddenScanPairs.find? (fun p => hiddenQualifies hiddenBoard p.1 p.2) =
        some (("row", 0), 1) ∧
    (unitCells "row" 0).filter
        (fun p => decide (1 ∈ candidates hiddenBoard p.1 p.2)) = [(0, 8)] ∧
    (findMove hiddenBoard zeroGrid).map
        (fun h => (h.technique, h.row, h.col, h.value)) =
      some ("Hidden Single (" ++ capUnitType "row" ++ ")", 0, 8, 1) :=
  ⟨by decide, by decide, by decide,
    findMove_hiddenSingle hiddenBoard zeroGrid "row" 0 1 0 8 (by decide)
      (by decide) (by decide)⟩

theorem findMove_hint_invariant_witness :
    (∀ rc ∈ rowMajor, 1 ≤ solvedGrid rc.1 rc.2 ∧ solvedGrid rc.1 rc.2 ≤ 9) ∧
    ((findMove zeroGrid solvedGrid).elim True fun h =>
      zeroGrid h.row h.col = 0 ∧ h.highlight.target = (h.row, h.col) ∧
        1 ≤ h.value ∧ h.value ≤ 9) :=
  ⟨by decide, findMove_hint_invariant zeroGrid solvedGrid (by decide)⟩

theorem candidates_spec_witness :
    candidates nakedBoard 0 0 = ∅ ∧
    candidates nakedBoard 0 8 = Finset.Icc 1 9 \ peerValues nakedBoard 0 8 :=
  ⟨(candidates_spec nakedBoard 0 0).1 (by decide),
    (candidates_spec nakedBoard 0 8).2.1 (by decide)⟩

theorem conflicts_characterization_witness :
    ((0, 1) ∈ conflicts (ofRows [[0, 5]]) 0 0 5 ↔
      ((0, 1) : Nat × Nat) ≠ (0, 0) ∧ sameUnit 0 1 0 0 ∧
        ofRows [[0, 5]] 0 1 = 5) ∧
    (conflicts (ofRows [[0, 5]]) 0 0 5).count (0, 1) =
      (if ofRows [[0, 5]] 0 1 = 5 ∧ ¬(0 = 0 ∧ 1 = 0) ∧ sameUnit 0 1 0 0 then
        if (0 / 3 = 0 / 3 ∧ 1 / 3 = 0 / 3) ∧ (0 = 0 ∨ 1 = 0) then 2 else 1
      else 0) :=
  conflicts_characterization (ofRows [[0, 5]]) 0 0 5 0 1 (by decide)
    (by decide) (by decide) (by decide)

theorem countSolutions_counts_completions_witness :
    WellFormed (setCell solvedGrid 8 8 0) ∧
    ValidPartial (setCell solvedGrid 8 8 0) ∧
    (countSolutions (setCell solvedGrid 8 8 0) (some 2) =
        min (numCompletions (setCell solvedGrid 8 8 0)) 2 ∧
      countSolutions (setCell solvedGrid 8 8 0) (some 2) ≤ 2 ∧
      countSolutions (setCell solvedGrid 8 8 0) none =
        min (numCompletions (setCell solvedGrid 8 8 0)) 2) :=
  ⟨by decide, by decide,
    countSolutions_counts_completions (setCell solvedGrid 8 8 0) 2 (by decide)
      (by decide) (by decide)⟩

end SudokuTutor
